import Mathlib

/-!
Verification of the scope-state reactive data layer.

This file gives a shallow embedding of the core of the repository
(`src/core/listeners` in `src/unnamed/part_006`, the persistence module in
`src/unnamed/part_000`, `src/core/proxy.ts`, `src/core/tracking.ts`) and
proves the frozen claims about it.

Dotted path strings are modelled by Lean `String`; the JavaScript string
operations used by the source (`split('.')`, `join('.')`, `startsWith`) are
embedded as executable character-level functions below.
-/

namespace ScopeState

/-- Character-level embedding of JavaScript `str.split('.')`:
splits a character list at every dot, keeping empty segments. -/
def splitDotChars : List Char → List (List Char)
  | [] => [[]]
  | c :: rest =>
    match splitDotChars rest with
    | [] => [[]]
    | cur :: acc => if c = '.' then [] :: cur :: acc else (c :: cur) :: acc

/-- Embedding of JavaScript `path.split('.')` on a Lean `String`. -/
def splitDot (s : String) : List String :=
  (splitDotChars s.data).map String.mk

/-- Embedding of JavaScript `segments.join('.')`. -/
def joinDot : List String → String
  | [] => ""
  | [s] => s
  | s :: rest => s ++ "." ++ joinDot rest

/-- Embedding of JavaScript `s.startsWith(pre)`. -/
def startsWithS (s pre : String) : Bool :=
  pre.data.isPrefixOf s.data

/-- Character-level rejoining with dots, inverse of `splitDotChars`. -/
def joinChars : List (List Char) → List Char
  | [] => []
  | [x] => x
  | x :: y :: rest => x ++ '.' :: joinChars (y :: rest)

/-!
Path registry and notification fan-out, embedding `subscribe`,
the unsubscribe closure it returns, and `notifyListeners` from
`src/unnamed/part_006` (`src/core/listeners`).

`pathListeners : Map<string, Set<Listener>>` is embedded as an
insertion-ordered association list from path-key strings to lists of
listener identifiers (a JS `Set` iterates in insertion order and holds no
duplicates; `subscribe` preserves that shape).  Listener callbacks are
identified by `Nat`; which callbacks throw when invoked is described by a
`bad` predicate in `NotifyEnv`.  `notifyListeners` returns the ordered
list of invocations; a thrown callback exception aborts the remaining
fan-out and propagates, which the embedding renders as `Except.error`
carrying the invocations made up to and including the throwing callback.
Monitoring counters and console logging are omitted: they do not affect
which listeners run.  The source never writes to `pathListeners` during
`notifyListeners`, so the embedding is a pure function of the registry.
-/
abbrev Registry := List (String × List Nat)

/-- Embedding of `pathListeners.get(key)` (with `has` as `isSome`). -/
def getListeners (reg : Registry) (key : String) : Option (List Nat) :=
  (reg.find? (fun e => e.1 == key)).map (·.2)

/-- Embedding of `subscribe(path, listener)`: create the entry if absent,
then add the listener to its set. -/
def subscribeFn (reg : Registry) (path : String) (l : Nat) : Registry :=
  let reg1 := if (getListeners reg path).isSome then reg else reg ++ [(path, [])]
  reg1.map (fun e =>
    if e.1 == path then (e.1, if e.2.contains l then e.2 else e.2 ++ [l]) else e)

/-- Effect of `pathListeners.get(path)?.delete(listener)` on one map
entry: the set registered at `path` loses `l`, all other entries are
untouched. -/
def unsubStep (path : String) (l : Nat) (e : String × List Nat) : String × List Nat :=
  if e.1 == path then (e.1, e.2.filter (fun x => x != l)) else e

/-- Embedding of the unsubscribe closure returned by `subscribe`:
`pathListeners.get(path)?.delete(listener)` followed by removal of the
entry when its set became empty. -/
def unsubscribeFn (reg : Registry) (path : String) (l : Nat) : Registry :=
  let reg1 := reg.map (unsubStep path l)
  match getListeners reg1 path with
  | some [] => reg1.filter (fun e => e.1 != path)
  | _ => reg1

/-- Environment of a notification: whether a browser `window` exists,
the JS numeric test `!isNaN(Number(s))` on a segment (kept abstract), and
which listener callbacks throw when invoked. -/
structure NotifyEnv where
  isBrowser : Bool
  numOk : String → Bool
  bad : Nat → Bool

/-- Run one listener set in order (`listeners.forEach(l => l())`): a
throwing callback runs, then the exception aborts everything after it. -/
def runListeners (bad : Nat → Bool) : List Nat → List Nat → Except (List Nat) (List Nat)
  | [], acc => .ok acc
  | l :: rest, acc =>
    if bad l then .error (acc ++ [l]) else runListeners bad rest (acc ++ [l])

/-- Run the listener set registered at one key, if any. -/
def runKey (env : NotifyEnv) (reg : Registry) (key : String) (acc : List Nat) :
    Except (List Nat) (List Nat) :=
  match getListeners reg key with
  | some ls => runListeners env.bad ls acc
  | none => .ok acc

/-- Run the listener sets at a list of keys in order. -/
def runKeyList (env : NotifyEnv) (reg : Registry) :
    List String → List Nat → Except (List Nat) (List Nat)
  | [], acc => .ok acc
  | k :: rest, acc => do
    let acc ← runKey env reg k acc
    runKeyList env reg rest acc

/-- Run a list of registry entries in order (the descendant sweep). -/
def runEntries (bad : Nat → Bool) :
    List (String × List Nat) → List Nat → Except (List Nat) (List Nat)
  | [], acc => .ok acc
  | e :: rest, acc => do
    let acc ← runListeners bad e.2 acc
    runEntries bad rest acc

/-- The ancestor keys visited by the parent loop
(`for i = path.length - 1; i >= 0; i--`), nearest first. -/
def ancestorKeys (path : List String) : List String :=
  (List.range path.length).reverse.map (fun i => joinDot (path.take i))

/-- Embedding of `notifyListeners(path)`. -/
def notifyListeners (env : NotifyEnv) (reg : Registry) (path : List String) :
    Except (List Nat) (List Nat) :=
  if !env.isBrowser then .ok []
  else
    let pathKey := joinDot path
    do
      let acc ← runKey env reg pathKey []
      let lastSegment := (path.getLast?).getD ""
      let acc ← if lastSegment != "" && env.numOk lastSegment then
          runKey env reg (joinDot (path.dropLast)) acc
        else .ok acc
      let acc ← runKeyList env reg (ancestorKeys path) acc
      runEntries env.bad
        (reg.filter (fun e => startsWithS e.1 (pathKey ++ "."))) acc

/-- Listener set registered at a key, defaulting to empty: the group of
subscribers a notification phase invokes for that key. -/
def groupFor (reg : Registry) (key : String) : List Nat :=
  (getListeners reg key).getD []

/-- Subscribers invoked for the written path itself. -/
def exactGroup (reg : Registry) (path : List String) : List Nat :=
  groupFor reg (joinDot path)

/-- Subscribers invoked for the parent array when the final segment is a
numeric array index. -/
def arrayParentGroup (env : NotifyEnv) (reg : Registry) (path : List String) : List Nat :=
  let lastSegment := (path.getLast?).getD ""
  if lastSegment != "" && env.numOk lastSegment then
    groupFor reg (joinDot (path.dropLast))
  else []

/-- Subscribers invoked for the strict ancestors, nearest to root. -/
def ancestorsGroup (reg : Registry) (path : List String) : List Nat :=
  (ancestorKeys path).flatMap (groupFor reg)

/-- Subscribers invoked for the strict descendants, in registry order. -/
def descendantsGroup (reg : Registry) (path : List String) : List Nat :=
  (reg.filter (fun e => startsWithS e.1 (joinDot path ++ "."))).flatMap (·.2)

/-- The slice of `proxyConfig` consulted by the embedded functions. -/
structure ProxyConfig where
  enabled : Bool
  maxDepth : Nat
  selectiveProxying : Bool
  ultraSelectiveProxying : Bool
  disableProxyingUnderPressure : Bool
  prioritizeUIObjects : Bool
  priorityPaths : List String
  preProxyPaths : List String
  maxProxyCacheSize : Nat
  maxPathLength : Nat

/-- Mutable state of the tracking module, plus the usage-statistic sets
`trackPathAccess` writes to. -/
structure TrackState where
  isTracking : Bool
  currentPath : List String
  skipTrackingDepth : Nat
  accessedPaths : List String
  selectorPaths : List String

/-- Adding to a JS `Set`: append only when absent. -/
def setAdd (s : List String) (x : String) : List String :=
  if s.contains x then s else s ++ [x]

/-- Embedding of `trackPathAccess(path)`: a no-op unless tracking is on
and the skip depth is zero, otherwise pushes the final segment and
records the full path in the usage sets. -/
def trackPathAccess (cfg : ProxyConfig) (path : List String) (s : TrackState) :
    TrackState :=
  if !s.isTracking || decide (0 < s.skipTrackingDepth) then s
  else
    let prop := (path.getLast?).getD ""
    if prop != "" && decide (path.length ≤ cfg.maxPathLength) then
      { s with currentPath := s.currentPath ++ [prop],
               accessedPaths := setAdd s.accessedPaths (joinDot path),
               selectorPaths := setAdd s.selectorPaths (joinDot path) }
    else s

/-- Embedding of `trackDependencies(selector)`. -/
def trackDependencies {α : Type} (sel : TrackState → α × TrackState)
    (s : TrackState) : (α × List String) × TrackState :=
  let s1 := { s with isTracking := true, currentPath := [], skipTrackingDepth := 0 }
  let vs := sel s1
  let s2 := { vs.2 with isTracking := false }
  let cleanedPaths := s2.currentPath.filter
    (fun segment => segment != "" && decide (segment.length < 100))
  ((vs.1, cleanedPaths), { s2 with currentPath := [] })

/-- Embedding of `skipTracking(fn)`: depth up, run, depth back down. -/
def skipTracking {α : Type} (fn : TrackState → α × TrackState)
    (s : TrackState) : α × TrackState :=
  let vs := fn { s with skipTrackingDepth := s.skipTrackingDepth + 1 }
  (vs.1, { vs.2 with skipTrackingDepth := vs.2.skipTrackingDepth - 1 })

/-- Syntax of a selector body as the tracker sees it: a sequence of
proxied property reads, possibly nested in `skipTracking` regions. -/
inductive SelOp where
  | read (path : List String) : SelOp
  | skipBlock (ops : List SelOp) : SelOp

mutual

/-- Effect of one selector operation on the tracker state. -/
def runOp (cfg : ProxyConfig) : SelOp → TrackState → TrackState
  | .read p, s => trackPathAccess cfg p s
  | .skipBlock ops, s =>
    let s2 := runOps cfg ops { s with skipTrackingDepth := s.skipTrackingDepth + 1 }
    { s2 with skipTrackingDepth := s2.skipTrackingDepth - 1 }

/-- Effect of a sequence of selector operations on the tracker state. -/
def runOps (cfg : ProxyConfig) : List SelOp → TrackState → TrackState
  | [], s => s
  | op :: rest, s => runOps cfg rest (runOp cfg op s)

end

/-- A JavaScript value as `createAdvancedProxy` discriminates it. -/
inductive JSVal where
  | prim (n : Nat) : JSVal
  | obj (id : Nat) (ext : Bool) : JSVal
deriving DecidableEq

/-- Result of a wrap call: the input returned unchanged, or a Wrapper. -/
inductive WrapResult where
  | raw (v : JSVal) : WrapResult
  | proxy (pid : Nat) : WrapResult
deriving DecidableEq

/-- State of the proxy cache and its LRU recency index. -/
structure ProxyState where
  cache : List (Nat × Nat)
  lruKeys : List Nat
  lruStamps : List Nat
  clock : Nat
  nextId : Nat
  isUnderPressure : Bool
  selectorPaths : List String
deriving DecidableEq

/-- The `evictOldest` scan: index of the first strictly-smallest
timestamp (`oldestIndex`, walking `i = 1 …` with `<`). -/
def oldestIdxAux : List Nat → Nat → Nat → Nat → Nat
  | [], _, best, _ => best
  | t :: rest, i, best, bestT =>
    if t < bestT then oldestIdxAux rest (i + 1) i t
    else oldestIdxAux rest (i + 1) best bestT

/-- Index of the least-recently-touched entry. -/
def oldestIdx : List Nat → Nat
  | [] => 0
  | t :: rest => oldestIdxAux rest 1 0 t

/-- Embedding of `proxyCacheLRU.evictOldest()`: drop the oldest entry
from the recency index and from the cache. -/
def evictOldest (s : ProxyState) : ProxyState :=
  if s.lruKeys.isEmpty then s
  else
    let i := oldestIdx s.lruStamps
    let oldestKey := s.lruKeys.getD i 0
    { s with cache := s.cache.filter (fun e => e.1 != oldestKey),
             lruKeys := s.lruKeys.eraseIdx i,
             lruStamps := s.lruStamps.eraseIdx i }

/-- Embedding of `proxyCacheLRU.add(key, proxy)` for an object key:
refresh if present, else append and evict once past `maxSize`. -/
def lruAdd (cfg : ProxyConfig) (s : ProxyState) (key : Nat) : ProxyState :=
  match s.lruKeys.findIdx? (fun k => k == key) with
  | some i => { s with lruStamps := s.lruStamps.set i s.clock, clock := s.clock + 1 }
  | none =>
    let s1 := { s with lruKeys := s.lruKeys ++ [key],
                       lruStamps := s.lruStamps ++ [s.clock],
                       clock := s.clock + 1 }
    if cfg.maxProxyCacheSize < s1.lruKeys.length then evictOldest s1 else s1

/-- Embedding of `proxyCacheLRU.touch(key)`. -/
def lruTouch (s : ProxyState) (key : Nat) : ProxyState :=
  match s.lruKeys.findIdx? (fun k => k == key) with
  | some i => { s with lruStamps := s.lruStamps.set i s.clock, clock := s.clock + 1 }
  | none => s

/-- Embedding of `isHighPriorityPath(path)`. -/
def isHighPriorityPath (cfg : ProxyConfig) (path : List String) : Bool :=
  if !cfg.prioritizeUIObjects then false
  else
    let pathStr := joinDot path
    cfg.priorityPaths.any (fun p => pathStr == p || startsWithS pathStr (p ++ "."))

/-- Embedding of `createAdvancedProxy(target, path, depth)`: primitives
and `null` are returned unchanged, as is the target when wrapping is
disabled or a shed policy fires; a cached Wrapper is returned with its
recency refreshed; otherwise (beyond the depth limit the plain target,
else) a fresh Wrapper is created, cached and recency-indexed.  A
non-extensible target is first cloned (fresh identity), so the clone is
what gets cached. -/
def createAdvancedProxy (cfg : ProxyConfig) (s : ProxyState) (target : JSVal)
    (path : List String) (depth : Nat) : WrapResult × ProxyState :=
  match target with
  | .prim _ => (.raw target, s)
  | .obj oid ext =>
    if !cfg.enabled then (.raw target, s)
    else
      let pathKey := joinDot path
      if s.isUnderPressure && cfg.disableProxyingUnderPressure &&
          decide (0 < depth) && !isHighPriorityPath cfg path then
        (.raw target, s)
      else if cfg.ultraSelectiveProxying && decide (0 < depth) &&
          !s.selectorPaths.contains pathKey &&
          !isHighPriorityPath cfg path &&
          !cfg.preProxyPaths.any (fun p =>
            pathKey == p || startsWithS pathKey (p ++ ".")) then
        (.raw target, s)
      else
        match s.cache.find? (fun e => e.1 == oid) with
        | some e => (.proxy e.2, lruTouch s oid)
        | none =>
          if cfg.selectiveProxying && decide (cfg.maxDepth < depth) then
            (.raw target, s)
          else
            let keyS := if ext then (oid, s)
                        else (s.nextId, { s with nextId := s.nextId + 1 })
            let pid := keyS.2.nextId
            let s2 := { keyS.2 with nextId := keyS.2.nextId + 1,
                                    cache := keyS.2.cache ++ [(keyS.1, pid)] }
            (.proxy pid, lruAdd cfg s2 keyS.1)

/-- The serializable slice of `persistenceConfig`. -/
structure PersistenceConfig where
  enabled : Bool
  paths : List String
  blacklist : List String
  batchDelay : Nat

/-- Embedding of `shouldPersistPath(path)`. -/
def shouldPersistPath (cfg : PersistenceConfig) (path : String) : Bool :=
  if !cfg.enabled then false
  else
    let segments := splitDot path
    if (List.range segments.length).any (fun i =>
        cfg.blacklist.any (fun b => b == joinDot (segments.take (i + 1)))) then
      false
    else if cfg.paths.isEmpty then true
    else cfg.paths.any (fun persistedPath =>
      path == persistedPath || startsWithS path (persistedPath ++ ".") ||
        startsWithS persistedPath (path ++ "."))

/-- Embedding of `getPersistenceRoot(changePath)`. -/
def getPersistenceRoot (cfg : PersistenceConfig) (changePath : String) : String :=
  match (if cfg.paths.isEmpty then none
         else cfg.paths.find? (fun configPath =>
           changePath == configPath ||
             startsWithS changePath (configPath ++ "."))) with
  | some configPath => configPath
  | none => (splitDot changePath).headD ""

/-- The hydration flags guarding `addToPersistenceBatch`. -/
structure PersistFlags where
  isHydrating : Bool
  hasHydrated : Bool

/-- A JSON-ish value navigated and serialized by `persistSlice`. -/
inductive JVal where
  | null : JVal
  | undefined : JVal
  | num (n : Nat) : JVal
  | str (s : String) : JVal
  | obj (fields : List (String × JVal)) : JVal
  | unserializable : JVal

/-- State of the `persistenceBatch` singleton plus the storage write log. -/
structure BatchState where
  roots : List String
  timerArmed : Bool
  isPersisting : Bool
  writes : List (String × JVal)

/-- Embedding of `schedulePersistenceBatch()`: (re)arm the debounce. -/
def schedulePersistenceBatch (s : BatchState) : BatchState :=
  { s with timerArmed := true }

/-- Embedding of `addToPersistenceBatch(path)`. -/
def addToPersistenceBatch (cfg : PersistenceConfig) (flags : PersistFlags)
    (s : BatchState) (path : List String) : BatchState :=
  if !cfg.enabled || flags.isHydrating || !flags.hasHydrated then s
  else
    let pathKey := joinDot path
    if shouldPersistPath cfg pathKey then
      schedulePersistenceBatch
        { s with roots := setAdd s.roots (getPersistenceRoot cfg pathKey) }
    else s

/-- JavaScript property read `value[segment]`. -/
def jsGet : JVal → String → JVal
  | .obj fs, k => ((fs.find? (fun e => e.1 == k)).map (·.2)).getD .undefined
  | _, _ => .undefined

/-- JavaScript `key in value`. -/
def jHas : JVal → String → Bool
  | .obj fs, k => (fs.find? (fun e => e.1 == k)).isSome
  | _, _ => false

/-- Assignment into an object field list: replace or append. -/
def setKeyA : List (String × JVal) → String → JVal → List (String × JVal)
  | [], k, v => [(k, v)]
  | e :: rest, k, v => if e.1 == k then (k, v) :: rest else e :: setKeyA rest k v

/-- JavaScript property write `value[key] = v` on an object. -/
def jSetKey : JVal → String → JVal → JVal
  | .obj fs, k, v => .obj (setKeyA fs k v)
  | other, _, _ => other

mutual

/-- Whether `JSON.stringify` succeeds on the value. -/
def serializeOk : JVal → Bool
  | .unserializable => false
  | .obj fs => serializeOkFields fs
  | .null => true
  | .undefined => true
  | .num _ => true
  | .str _ => true

/-- Whether `JSON.stringify` succeeds on every field value. -/
def serializeOkFields : List (String × JVal) → Bool
  | [] => true
  | e :: rest => serializeOk e.2 && serializeOkFields rest

end

/-- The navigation loop of `persistSlice`: walk the segments, bailing
out on `undefined`/`null` along the way and on `undefined` at the end. -/
def navPath : JVal → List String → Option JVal
  | v, [] => match v with
    | .undefined => none
    | _ => some v
  | v, seg :: rest => match v with
    | .undefined => none
    | .null => none
    | _ => navPath (jsGet v seg) rest

/-- Environment of a flush: browser flag, the raw store reference, and
which storage keys the adapter's `setItem` fails on. -/
structure PersistEnv where
  isBrowser : Bool
  store : Option JVal
  adapterFails : String → Bool

/-- Embedding of `persistSlice(rootPath)`: navigate to the slice value,
serialize it and write it; serialization and adapter failures are caught
inside and leave the state unchanged. -/
def persistSlice (cfg : PersistenceConfig) (env : PersistEnv) (s : BatchState)
    (rootPath : String) : BatchState :=
  if !cfg.enabled then s
  else
    match env.store with
    | none => s
    | some store =>
      match navPath store (splitDot rootPath) with
      | none => s
      | some value =>
        if serializeOk value then
          if env.adapterFails ("persisted_state_" ++ rootPath) then s
          else { s with writes :=
            s.writes ++ [("persisted_state_" ++ rootPath, value)] }
        else s

/-- The per-root outcome of one `persistSlice` call: the storage write
it performs, if any.  Only a function of the environment and the root. -/
def sliceOutcome (cfg : PersistenceConfig) (env : PersistEnv)
    (rootPath : String) : Option (String × JVal) :=
  if !cfg.enabled then none
  else
    match env.store with
    | none => none
    | some store =>
      match navPath store (splitDot rootPath) with
      | none => none
      | some value =>
        if serializeOk value then
          if env.adapterFails ("persisted_state_" ++ rootPath) then none
          else some ("persisted_state_" ++ rootPath, value)
        else none

/-- Embedding of `processPersistenceBatch()`.  `injected` are the roots
added by `addToPersistenceBatch` calls that land while this flush is in
progress (each such call also arms the debounce timer). -/
def processPersistenceBatch (cfg : PersistenceConfig) (env : PersistEnv)
    (s : BatchState) (injected : List String) : BatchState :=
  if !env.isBrowser then s
  else if s.isPersisting || s.roots.isEmpty then s
  else
    let snapshot := s.roots
    let s1 := { s with isPersisting := true, roots := [] }
    let s2 := snapshot.foldl (persistSlice cfg env) s1
    let s3 := { s2 with roots := injected.foldl setAdd s2.roots,
                        timerArmed := s2.timerArmed || !injected.isEmpty }
    let s4 := { s3 with isPersisting := false }
    if s4.roots.isEmpty then s4 else schedulePersistenceBatch s4

/-- Parse-result view of one stored string. -/
inductive StoredVal where
  | empty : StoredVal
  | malformed : StoredVal
  | val (j : JVal) : StoredVal

/-- The storage adapter's contents: `keys()` is the key column,
`getItem` the association lookup. -/
abbrev Storage := List (String × StoredVal)

/-- Embedding of `adapter.getItem(key)` (absent keys give `null`). -/
def storGet (st : Storage) (key : String) : Option StoredVal :=
  (st.find? (fun e => e.1 == key)).map (·.2)

/-- Number of dot segments of a storage key, the hydration sort key
(`a.split('.').length`). -/
def keyDepth (k : String) : Nat := (splitDot k).length

/-- Stable insertion into a depth-sorted list (after all keys of equal
or smaller depth), matching the stable JS `sort` by depth. -/
def insertByDepth (x : String) : List String → List String
  | [] => [x]
  | y :: ys => if keyDepth x < keyDepth y then x :: y :: ys else y :: insertByDepth x ys

/-- Stable sort of the slice keys by segment depth, shallowest first. -/
def sortByDepth (ks : List String) : List String :=
  ks.foldl (fun acc k => insertByDepth k acc) []

/-- `key.replace('persisted_state_', '')` on a key that starts with the
prefix: drop the prefix characters. -/
def dropPfx (key pfx : String) : String :=
  String.mk (key.data.drop pfx.data.length)

/-- The nested-path write of the hydration merge loop: walk toward the
leaf, turning each missing/non-object intermediate into a fresh object
(the source shallow-copies existing objects, which is the identity in
this pure model), then assign the leaf. -/
def setDeepIn : JVal → List String → JVal → JVal
  | cur, [], _ => cur
  | cur, [last], v => jSetKey cur last v
  | cur, seg :: rest, v =>
    let child := match jsGet cur seg with
      | .obj fs => JVal.obj fs
      | _ => JVal.obj []
    jSetKey cur seg (setDeepIn child rest v)

/-- One iteration of the slice loop in `mergePersistedIntoState`:
blacklist check, skip-if-covered check, then parse and apply the slice
and record its root. -/
def mergeSliceStep (cfg : PersistenceConfig) (storage : Storage)
    (st : JVal × List String) (key : String) : JVal × List String :=
  let pathStr := dropPfx key "persisted_state_"
  if !shouldPersistPath cfg pathStr then st
  else if st.2.any (fun root => startsWithS pathStr (root ++ ".")) then st
  else
    match storGet storage key with
    | some (.val parsedValue) =>
      let segments := splitDot pathStr
      if segments.length == 1 then
        (jSetKey st.1 (segments.headD "") parsedValue, st.2 ++ [pathStr])
      else
        (setDeepIn st.1 segments parsedValue, st.2 ++ [pathStr])
    | _ => st

/-- Whether a value is a JSON object (the shape hydration writes into). -/
def isObjB : JVal → Bool
  | .obj _ => true
  | _ => false

/-- Environment of the synchronous hydration merge. -/
structure MergeEnv where
  isBrowser : Bool
  hasWarmCache : Bool
  storage : Storage

/-- Embedding of `mergePersistedIntoState(initialState)`: `none` when
there is no synchronous adapter to read (server, cached/async adapter),
otherwise overlay the full-state blob, then the slice entries sorted
shallowest-first with covered children skipped. -/
def mergePersistedIntoState (cfg : PersistenceConfig) (env : MergeEnv)
    (initialState : JVal) : Option JVal :=
  if !env.isBrowser then none
  else if env.hasWarmCache then none
  else
    let merged := initialState
    let merged := match storGet env.storage "persisted_state" with
      | some (.val (.obj fs)) =>
        fs.foldl (fun m kv => if jHas m kv.1 then jSetKey m kv.1 kv.2 else m) merged
      | _ => merged
    let sliceKeys := sortByDepth ((env.storage.map (·.1)).filter
      (fun k => startsWithS k "persisted_state_"))
    some (sliceKeys.foldl (mergeSliceStep cfg env.storage) (merged, [])).1

/-- Concrete notification environment for witnesses: a browser, `"2"` as
the one numeric-looking segment, no throwing callbacks. -/
def envN : NotifyEnv := ⟨true, fun s => decide (s = "2"), fun _ => false⟩

/-- Concrete registry for witnesses: listeners on the written path, an
ancestor, the root, a descendant and an unrelated path. -/
def regN : Registry := [("a", [1]), ("a.b", [2]), ("x", [9]), ("a.b.c", [3]), ("", [4])]

/-- Concrete environment whose callback `1` throws. -/
def envThrow : NotifyEnv := ⟨true, fun _ => false, fun n => n == 1⟩

/-- Registry with two listeners on `"a"`, the first of which throws. -/
def regThrow : Registry := [("a", [1, 2])]

/-- Registry with two distinct listeners on `"a"`, for the unsubscribe
witness. -/
def regN2 : Registry := [("a", [1, 2])]

/-- Concrete proxy configuration (the source defaults). -/
def cfgT : ProxyConfig :=
  { enabled := true, maxDepth := 5, selectiveProxying := false,
    ultraSelectiveProxying := false, disableProxyingUnderPressure := false,
    prioritizeUIObjects := true, priorityPaths := [], preProxyPaths := [],
    maxProxyCacheSize := 5000, maxPathLength := 20 }

/-- Concrete idle tracker state. -/
def trackS0 : TrackState :=
  { isTracking := false, currentPath := [], skipTrackingDepth := 0,
    accessedPaths := [], selectorPaths := [] }

/-- Concrete selector: one proxied read of `a.b` returning `7`. -/
def selT : TrackState → Nat × TrackState :=
  fun st => (7, trackPathAccess cfgT ["a", "b"] st)

/-- Spec-side reading of the blacklist rule: the path or one of its
dot-prefix ancestors equals a configured blacklist entry. -/
def BlacklistHit (cfg : PersistenceConfig) (p : String) : Prop :=
  ∃ i < (splitDot p).length,
    joinDot ((splitDot p).take (i + 1)) ∈ cfg.blacklist

/-- Spec-side reading of the allow-list rule: the path equals, descends
from, or is an ancestor of a configured allow-listed path. -/
def AllowRelated (cfg : PersistenceConfig) (p : String) : Prop :=
  ∃ a ∈ cfg.paths,
    p = a ∨ startsWithS p (a ++ ".") = true ∨ startsWithS a (p ++ ".") = true

/-- The claim's example configuration: allow-list `["user"]`, blacklist
`["user.secret"]`. -/
def exCfg : PersistenceConfig :=
  { enabled := true, paths := ["user"], blacklist := ["user.secret"],
    batchDelay := 300 }

/-- Hydration-complete flags under which writes are batched. -/
def flagsOk : PersistFlags := { isHydrating := false, hasHydrated := true }

/-- Empty initial batch state. -/
def sB0 : BatchState :=
  { roots := [], timerArmed := false, isPersisting := false, writes := [] }

/-- Well-formedness of the proxy cache state: keys and stamps are
parallel, every stamp predates the clock, keys are distinct (the
`findIndex` check in `add` keeps them so). -/
def ProxyInv (s : ProxyState) : Prop :=
  s.lruStamps.length = s.lruKeys.length ∧
  (∀ t ∈ s.lruStamps, t < s.clock) ∧
  s.lruKeys.Nodup

/-- Empty proxy-cache state. -/
def sP0 : ProxyState :=
  { cache := [], lruKeys := [], lruStamps := [], clock := 0, nextId := 0,
    isUnderPressure := false, selectorPaths := [] }

/-- Proxy-cache state holding one cached Wrapper `100` for object `10`. -/
def sPC : ProxyState :=
  { cache := [(10, 100)], lruKeys := [10], lruStamps := [0], clock := 1,
    nextId := 101, isUnderPressure := false, selectorPaths := [] }

/-- A full recency index of two entries, object `10` older than `11`. -/
def sLRU : ProxyState :=
  { cache := [(10, 100), (11, 101)], lruKeys := [10, 11], lruStamps := [0, 1],
    clock := 2, nextId := 102, isUnderPressure := false, selectorPaths := [] }

/-- The source defaults with wrapping globally disabled. -/
def cfgOff : ProxyConfig :=
  { cfgT with enabled := false }

/-- The source defaults with a cache bounded at two entries. -/
def cfgL : ProxyConfig :=
  { cfgT with maxProxyCacheSize := 2 }

/-- Persistence enabled with no allow-list and no blacklist. -/
def cfgAll : PersistenceConfig :=
  { enabled := true, paths := [], blacklist := [], batchDelay := 300 }

/-- Concrete store: `user.name = "X"` and an unserializable `bad` slice. -/
def storeJ : JVal :=
  .obj [("user", .obj [("name", .str "X")]), ("bad", .unserializable)]

/-- Concrete flush environment over `storeJ`; `setItem` only fails for
the key `persisted_state_tmp`. -/
def envP : PersistEnv :=
  { isBrowser := true, store := some storeJ,
    adapterFails := fun k => k == "persisted_state_tmp" }

/-- A batch of three pending roots: one healthy, one unserializable, one
absent from the store. -/
def sBF : BatchState :=
  { roots := ["user", "bad", "missing"], timerArmed := false,
    isPersisting := false, writes := [] }

/-- The same batch while a flush is already in progress. -/
def sBusy : BatchState :=
  { sBF with isPersisting := true }

/-- Concrete hydration storage: a full-state blob with `user.name = "X"`
and an individually persisted `user` slice with `name = "Y"`. -/
def storageEx : Storage :=
  [("persisted_state", .val (.obj [("user", .obj [("name", .str "X")])])),
   ("persisted_state_user", .val (.obj [("name", .str "Y")]))]

/-- Concrete synchronous hydration environment over `storageEx`. -/
def mergeEnvEx : MergeEnv :=
  { isBrowser := true, hasWarmCache := false, storage := storageEx }

/-- Concrete configured initial state with `user.name = "Z"`. -/
def initEx : JVal := .obj [("user", .obj [("name", .str "Z")])]

/-- Invariant carried through the hydration slice loop: the merged value
at root `r` is the stored slice `v`, the merged state is an object, and
`r` is recorded in the hydrated-roots set. -/
def SliceInv (r : String) (v : JVal) (st : JVal × List String) : Prop :=
  jsGet st.1 r = v ∧ isObjB st.1 = true ∧ r ∈ st.2

theorem splitDotChars_ne_nil (cs : List Char) : splitDotChars cs ≠ [] := by
  cases cs with
  | nil => simp [splitDotChars]
  | cons c rest =>
    simp only [splitDotChars]
    cases h : splitDotChars rest with
    | nil => simp
    | cons cur acc =>
      by_cases hc : c = '.' <;> simp [hc]

theorem joinChars_splitDotChars (cs : List Char) :
    joinChars (splitDotChars cs) = cs := by
  induction cs with
  | nil => rfl
  | cons c rest ih =>
    simp only [splitDotChars]
    cases h : splitDotChars rest with
    | nil => exact absurd h (splitDotChars_ne_nil rest)
    | cons cur acc =>
      rw [h] at ih
      by_cases hc : c = '.'
      · subst hc
        simpa [joinChars] using ih
      · simp only [if_neg hc]
        cases acc with
        | nil =>
          simp only [joinChars] at ih ⊢
          simp [ih]
        | cons a as =>
          simp only [joinChars, List.cons_append] at ih ⊢
          simp [ih]

theorem string_mk_append (a b : List Char) :
    String.mk a ++ String.mk b = String.mk (a ++ b) := rfl

theorem joinDot_map_mk (L : List (List Char)) :
    joinDot (L.map String.mk) = String.mk (joinChars L) := by
  induction L with
  | nil => rfl
  | cons x rest ih =>
    cases rest with
    | nil => rfl
    | cons y ys =>
      simp only [List.map_cons, joinDot, joinChars] at ih ⊢
      rw [ih]
      have h1 : String.mk x ++ "." = String.mk (x ++ ['.']) := rfl
      rw [h1, string_mk_append, List.append_assoc]
      rfl

/-- The dot-join of a dot-split is the original string (the spec's
"a Path string always round-trips" invariant, used to relate string keys
to segment lists). -/
theorem joinDot_splitDot (s : String) : joinDot (splitDot s) = s := by
  rw [splitDot, joinDot_map_mk, joinChars_splitDotChars]

theorem splitDotChars_of_no_dot (cs : List Char) (h : '.' ∉ cs) :
    splitDotChars cs = [cs] := by
  induction cs with
  | nil => rfl
  | cons c rest ih =>
    simp only [List.mem_cons, not_or] at h
    have hc : ¬ c = '.' := fun hcc => h.1 hcc.symm
    simp [splitDotChars, ih h.2, hc]

/-- A dot-free string splits into the single segment it is. -/
theorem splitDot_of_no_dot (s : String) (h : '.' ∉ s.data) :
    splitDot s = [s] := by
  rw [splitDot, splitDotChars_of_no_dot s.data h]
  simp

theorem data_append (a b : String) : (a ++ b).data = a.data ++ b.data := rfl

/-- A dot-free string never starts with `t ++ "."` (so a top-level root is
never skipped as a child of another hydrated root). -/
theorem startsWithS_dot_false (s t : String) (h : '.' ∉ s.data) :
    startsWithS s (t ++ ".") = false := by
  rw [startsWithS]
  by_contra hcon
  simp only [Bool.not_eq_false, List.isPrefixOf_iff_prefix] at hcon
  obtain ⟨rest, hrest⟩ := hcon
  apply h
  rw [← hrest, data_append]
  simp [String.data]

/-- If a path splits as `r :: rest` with `rest` nonempty, the original
string starts with `r ++ "."`. -/
theorem startsWithS_of_splitDot (p r : String) (rest : List String)
    (h : splitDot p = r :: rest) (hne : rest ≠ []) :
    startsWithS p (r ++ ".") = true := by
  have hp : p = joinDot (r :: rest) := by
    rw [← h, joinDot_splitDot]
  cases rest with
  | nil => exact absurd rfl hne
  | cons a as =>
    subst hp
    rw [startsWithS, List.isPrefixOf_iff_prefix]
    refine ⟨(joinDot (a :: as)).data, ?_⟩
    simp only [joinDot]
    rfl

theorem runListeners_ok (bad : Nat → Bool) (hb : ∀ n, bad n = false)
    (ls acc : List Nat) : runListeners bad ls acc = .ok (acc ++ ls) := by
  induction ls generalizing acc with
  | nil => simp [runListeners]
  | cons l rest ih =>
    simp [runListeners, hb l, ih]

theorem runKey_ok (env : NotifyEnv) (hb : ∀ n, env.bad n = false)
    (reg : Registry) (key : String) (acc : List Nat) :
    runKey env reg key acc = .ok (acc ++ groupFor reg key) := by
  rw [runKey, groupFor]
  cases getListeners reg key with
  | none => simp
  | some ls => simp [runListeners_ok env.bad hb]

theorem runKeyList_ok (env : NotifyEnv) (hb : ∀ n, env.bad n = false)
    (reg : Registry) (keys : List String) (acc : List Nat) :
    runKeyList env reg keys acc = .ok (acc ++ keys.flatMap (groupFor reg)) := by
  induction keys generalizing acc with
  | nil => simp [runKeyList]
  | cons k rest ih =>
    simp [runKeyList, runKey_ok env hb, ih, Bind.bind, Except.bind,
      List.append_assoc]

theorem runEntries_ok (bad : Nat → Bool) (hb : ∀ n, bad n = false)
    (entries : List (String × List Nat)) (acc : List Nat) :
    runEntries bad entries acc = .ok (acc ++ entries.flatMap (·.2)) := by
  induction entries generalizing acc with
  | nil => simp [runEntries]
  | cons e rest ih =>
    simp [runEntries, runListeners_ok bad hb, ih, Bind.bind, Except.bind,
      List.append_assoc]

/-- When no callback throws, the fan-out is exactly the four groups in
source order: exact, array parent, ancestors nearest-first, descendants. -/
theorem notifyListeners_groups (env : NotifyEnv) (reg : Registry)
    (path : List String) (hw : env.isBrowser = true)
    (hb : ∀ n, env.bad n = false) :
    notifyListeners env reg path =
      .ok (exactGroup reg path ++ arrayParentGroup env reg path ++
           ancestorsGroup reg path ++ descendantsGroup reg path) := by
  by_cases hnum : ((path.getLast?).getD "" != "" &&
      env.numOk ((path.getLast?).getD "")) = true
  · simp only [notifyListeners, hw, hnum, Bool.not_true, Bool.false_eq_true,
      if_false, if_true, runKey_ok env hb, runKeyList_ok env hb,
      runEntries_ok env.bad hb, Bind.bind, Except.bind, exactGroup,
      arrayParentGroup, ancestorsGroup, descendantsGroup, List.nil_append,
      List.append_assoc]
  · rw [Bool.not_eq_true] at hnum
    simp only [notifyListeners, hw, hnum, Bool.not_true, Bool.false_eq_true,
      if_false, runKey_ok env hb, runKeyList_ok env hb,
      runEntries_ok env.bad hb, Bind.bind, Except.bind, exactGroup,
      arrayParentGroup, ancestorsGroup, descendantsGroup, List.nil_append,
      List.append_assoc]

/-- A listener appearing in a key group is registered at that key. -/
theorem mem_groupFor (reg : Registry) (key : String) (l : Nat)
    (h : l ∈ groupFor reg key) : ∃ ls, (key, ls) ∈ reg ∧ l ∈ ls := by
  rw [groupFor, getListeners] at h
  cases hf : reg.find? (fun e => e.1 == key) with
  | none => rw [hf] at h; simp at h
  | some e =>
    rw [hf] at h
    simp at h
    have hmem := List.mem_of_find?_eq_some hf
    have hkey := List.find?_some hf
    simp only [beq_iff_eq] at hkey
    exact ⟨e.2, by rwa [← hkey, Prod.mk.eta], h⟩

theorem unsubStep_fst (path : String) (l : Nat) (e : String × List Nat) :
    (unsubStep path l e).1 = e.1 := by
  rw [unsubStep]
  split <;> rfl

theorem unsubStep_idem (path : String) (l : Nat) (e : String × List Nat) :
    unsubStep path l (unsubStep path l e) = unsubStep path l e := by
  by_cases h : (e.1 == path) = true
  · simp [unsubStep, h, List.filter_filter]
  · simp [unsubStep, h]

theorem map_fix {α : Type} (f : α → α) (L : List α) (h : ∀ x ∈ L, f x = x) :
    L.map f = L := by
  induction L with
  | nil => rfl
  | cons a as ih =>
    simp only [List.map_cons, h a (by simp)]
    rw [ih (fun x hx => h x (by simp [hx]))]

/-- Deleting a listener maps the listener set at the path through
`filter` and leaves every other key alone. -/
theorem getListeners_map_unsubStep (reg : Registry) (path : String) (l : Nat) :
    getListeners (reg.map (unsubStep path l)) path =
      (getListeners reg path).map (fun ls => ls.filter (fun x => x != l)) := by
  rw [getListeners, getListeners, List.find?_map]
  have hp : ((fun e : String × List Nat => e.1 == path) ∘ unsubStep path l) =
      (fun e : String × List Nat => e.1 == path) := by
    funext e
    simp [Function.comp, unsubStep_fst]
  rw [hp]
  cases hf : reg.find? (fun e => e.1 == path) with
  | none => rfl
  | some e =>
    have hkey := List.find?_some hf
    simp only [beq_iff_eq] at hkey
    simp [unsubStep, hkey]

theorem unsubscribeFn_eq (reg : Registry) (path : String) (l : Nat) :
    unsubscribeFn reg path l =
      match getListeners (reg.map (unsubStep path l)) path with
      | some [] => (reg.map (unsubStep path l)).filter (fun e => e.1 != path)
      | _ => reg.map (unsubStep path l) := rfl

/-- The second call of the same unsubscribe closure changes nothing. -/
theorem unsubscribeFn_idem (reg : Registry) (path : String) (l : Nat) :
    unsubscribeFn (unsubscribeFn reg path l) path l = unsubscribeFn reg path l := by
  have hmap : (reg.map (unsubStep path l)).map (unsubStep path l) =
      reg.map (unsubStep path l) := by
    rw [List.map_map]
    have hcomp : (unsubStep path l ∘ unsubStep path l) = unsubStep path l := by
      funext e
      exact unsubStep_idem path l e
    rw [hcomp]
  rw [unsubscribeFn_eq reg path l]
  cases h : getListeners (reg.map (unsubStep path l)) path with
  | none =>
    rw [unsubscribeFn_eq, hmap, h]
  | some v =>
    cases v with
    | nil =>
      rw [unsubscribeFn_eq]
      have hfix : ((reg.map (unsubStep path l)).filter
          (fun e => e.1 != path)).map (unsubStep path l) =
          (reg.map (unsubStep path l)).filter (fun e => e.1 != path) := by
        apply map_fix
        intro e he
        have hne := List.of_mem_filter he
        rw [unsubStep]
        simp only [bne_iff_ne, ne_eq] at hne
        simp [hne]
      rw [hfix]
      have hnone : getListeners ((reg.map (unsubStep path l)).filter
          (fun e => e.1 != path)) path = none := by
        rw [getListeners]
        rw [List.find?_eq_none.mpr]
        · rfl
        · intro e he
          have hne := List.of_mem_filter he
          simpa using hne
      rw [hnone]
    | cons x xs =>
      rw [unsubscribeFn_eq, hmap, h]

/-- Unsubscribing one listener keeps every other listener registered on
the same path. -/
theorem mem_groupFor_unsubscribe (reg : Registry) (path : String) (l l' : Nat)
    (hne : l' ≠ l) (hmem : l' ∈ groupFor reg path) :
    l' ∈ groupFor (unsubscribeFn reg path l) path := by
  rw [groupFor] at hmem
  cases hg : getListeners reg path with
  | none => rw [hg] at hmem; simp at hmem
  | some ls =>
    rw [hg] at hmem
    simp only [Option.getD_some] at hmem
    have hmemF : l' ∈ ls.filter (fun x => x != l) := by
      rw [List.mem_filter]
      exact ⟨hmem, by simpa using hne⟩
    have hg1 : getListeners (reg.map (unsubStep path l)) path =
        some (ls.filter (fun x => x != l)) := by
      rw [getListeners_map_unsubStep, hg]
      rfl
    rw [unsubscribeFn_eq, hg1]
    cases hF : ls.filter (fun x => x != l) with
    | nil => rw [hF] at hmemF; simp at hmemF
    | cons y ys =>
      show l' ∈ groupFor (reg.map (unsubStep path l)) path
      rw [groupFor, hg1]
      simpa using hmemF

/-- C10: in a non-browser environment `notifyListeners` returns before
touching anything: for every registry and path, no subscriber callback is
invoked (and, the embedding being a pure function of the registry, the
registry is left unchanged). -/
theorem notify_no_browser_noop (numOk : String → Bool) (bad : Nat → Bool)
    (reg : Registry) (path : List String) :
    notifyListeners ⟨false, numOk, bad⟩ reg path = .ok [] := rfl

/-- C2 (failing input): with listeners `1` (throwing) and `2` both
registered on `"a"`, notifying `"a"` invokes only `1`; the exception
propagates (`error`) and listener `2`, due in the same call, is never
invoked — the source has no per-callback isolation. -/
theorem notify_throw_aborts_fanout :
    notifyListeners envThrow regThrow ["a"] = .error [1] := rfl

/-- C1: with no callback throwing, a browser notification on `path`
invokes exactly the four groups in order — exact-path subscribers, the
parent-array subscribers when the final segment is numeric, strict
ancestors nearest-to-root, then strict descendants — and every invoked
listener is registered on the path itself, an ancestor key, a descendant
key, or the numeric-index parent key. -/
theorem notify_fanout_exact_groups (env : NotifyEnv) (reg : Registry)
    (path : List String) (hw : env.isBrowser = true)
    (hb : ∀ n, env.bad n = false) :
    notifyListeners env reg path =
      .ok (exactGroup reg path ++ arrayParentGroup env reg path ++
           ancestorsGroup reg path ++ descendantsGroup reg path) ∧
    ∀ l, l ∈ exactGroup reg path ++ arrayParentGroup env reg path ++
           ancestorsGroup reg path ++ descendantsGroup reg path →
      ∃ key ls, (key, ls) ∈ reg ∧ l ∈ ls ∧
        (key = joinDot path ∨ key ∈ ancestorKeys path ∨
         startsWithS key (joinDot path ++ ".") = true ∨
         (key = joinDot path.dropLast ∧
           ((path.getLast?).getD "" != "" &&
             env.numOk ((path.getLast?).getD "")) = true)) := by
  refine ⟨notifyListeners_groups env reg path hw hb, ?_⟩
  intro l hl
  rcases List.mem_append.mp hl with hl | hdesc
  · rcases List.mem_append.mp hl with hl | hanc
    · rcases List.mem_append.mp hl with hex | harr
      · obtain ⟨ls, hry, hls⟩ := mem_groupFor reg (joinDot path) l hex
        exact ⟨joinDot path, ls, hry, hls, Or.inl rfl⟩
      · rw [arrayParentGroup] at harr
        by_cases hg : ((path.getLast?).getD "" != "" &&
            env.numOk ((path.getLast?).getD "")) = true
        · rw [if_pos hg] at harr
          obtain ⟨ls, hry, hls⟩ := mem_groupFor reg (joinDot path.dropLast) l harr
          exact ⟨joinDot path.dropLast, ls, hry, hls,
            Or.inr (Or.inr (Or.inr ⟨rfl, hg⟩))⟩
        · rw [if_neg hg] at harr
          simp at harr
    · rw [ancestorsGroup] at hanc
      obtain ⟨k, hk, hlk⟩ := List.mem_flatMap.mp hanc
      obtain ⟨ls, hry, hls⟩ := mem_groupFor reg k l hlk
      exact ⟨k, ls, hry, hls, Or.inr (Or.inl hk)⟩
  · rw [descendantsGroup] at hdesc
    obtain ⟨e, he, hle⟩ := List.mem_flatMap.mp hdesc
    have hmem := List.mem_of_mem_filter he
    have hpre := List.of_mem_filter he
    exact ⟨e.1, e.2, by rwa [Prod.mk.eta], hle, Or.inr (Or.inr (Or.inl hpre))⟩

/-- C1 witness: the fan-out theorem applied at a concrete registry and
path. -/
theorem notify_fanout_exact_groups_witness :
    notifyListeners envN regN ["a", "b"] =
      .ok (exactGroup regN ["a", "b"] ++ arrayParentGroup envN regN ["a", "b"] ++
           ancestorsGroup regN ["a", "b"] ++ descendantsGroup regN ["a", "b"]) ∧
    ∀ l, l ∈ exactGroup regN ["a", "b"] ++ arrayParentGroup envN regN ["a", "b"] ++
           ancestorsGroup regN ["a", "b"] ++ descendantsGroup regN ["a", "b"] →
      ∃ key ls, (key, ls) ∈ regN ∧ l ∈ ls ∧
        (key = joinDot ["a", "b"] ∨ key ∈ ancestorKeys ["a", "b"] ∨
         startsWithS key (joinDot ["a", "b"] ++ ".") = true ∨
         (key = joinDot (["a", "b"].dropLast) ∧
           ((["a", "b"].getLast?).getD "" != "" &&
             envN.numOk ((["a", "b"].getLast?).getD "")) = true)) :=
  notify_fanout_exact_groups envN regN ["a", "b"] rfl (fun _ => rfl)

/-- C9: the unsubscribe closure is idempotent — its second application
changes nothing — and isolated: any other listener on the same path stays
registered and is still invoked by a subsequent notification of that
path. -/
theorem unsubscribe_idempotent_isolated (reg : Registry) (p : String)
    (l l' : Nat) (hne : l' ≠ l) (hmem : l' ∈ groupFor reg p) :
    unsubscribeFn (unsubscribeFn reg p l) p l = unsubscribeFn reg p l ∧
    l' ∈ groupFor (unsubscribeFn reg p l) p ∧
    ∀ env path, env.isBrowser = true → (∀ n, env.bad n = false) →
      joinDot path = p →
      ∃ out, notifyListeners env (unsubscribeFn reg p l) path = .ok out ∧
        l' ∈ out := by
  have hiso := mem_groupFor_unsubscribe reg p l l' hne hmem
  refine ⟨unsubscribeFn_idem reg p l, hiso, ?_⟩
  intro env path hw hb hj
  refine ⟨_, notifyListeners_groups env (unsubscribeFn reg p l) path hw hb, ?_⟩
  apply List.mem_append_left
  apply List.mem_append_left
  apply List.mem_append_left
  rw [exactGroup, hj]
  exact hiso

/-- C9 witness: unsubscribing listener `1` from `"a"` leaves listener
`2` registered and notified. -/
theorem unsubscribe_idempotent_isolated_witness :
    unsubscribeFn (unsubscribeFn regN2 "a" 1) "a" 1 = unsubscribeFn regN2 "a" 1 ∧
    2 ∈ groupFor (unsubscribeFn regN2 "a" 1) "a" ∧
    (∃ out, notifyListeners envN (unsubscribeFn regN2 "a" 1) ["a"] = .ok out ∧
      2 ∈ out) := by
  have h := unsubscribe_idempotent_isolated regN2 "a" 1 2 (by decide)
    (by show 2 ∈ ([1, 2] : List Nat); decide)
  exact ⟨h.1, h.2.1, h.2.2 envN ["a"] rfl (fun _ => rfl) rfl⟩

theorem trackPathAccess_noop (cfg : ProxyConfig) (path : List String)
    (s : TrackState) (h : s.isTracking = false ∨ s.skipTrackingDepth ≠ 0) :
    trackPathAccess cfg path s = s := by
  rw [trackPathAccess]
  rcases h with h | h
  · simp [h]
  · simp [Nat.pos_of_ne_zero h]

mutual

theorem runOp_depth_pos (cfg : ProxyConfig) :
    (op : SelOp) → (s : TrackState) → 0 < s.skipTrackingDepth →
      runOp cfg op s = s
  | .read p, s, h => trackPathAccess_noop cfg p s (Or.inr (Nat.pos_iff_ne_zero.mp h))
  | .skipBlock ops, s, h => by
    rw [runOp]
    rw [runOps_depth_pos cfg ops _ (by simp)]
    cases s
    simp

theorem runOps_depth_pos (cfg : ProxyConfig) :
    (ops : List SelOp) → (s : TrackState) → 0 < s.skipTrackingDepth →
      runOps cfg ops s = s
  | [], _, _ => rfl
  | op :: rest, s, h => by
    rw [runOps, runOp_depth_pos cfg op s h]
    exact runOps_depth_pos cfg rest s h

end

/-- A selector region wrapped in `skipTracking` leaves the tracker state
exactly as it found it: inside the region the depth counter is positive,
so every read is silenced. -/
theorem runOp_skipBlock (cfg : ProxyConfig) (ops : List SelOp) (s : TrackState) :
    runOp cfg (.skipBlock ops) s = s := by
  rw [runOp]
  rw [runOps_depth_pos cfg ops _ (by simp)]
  cases s
  simp

/-- C8: `trackDependencies` clears the capture buffer, enters tracking
mode, runs the selector exactly once (the embedding applies `sel` to one
state), exits tracking mode and returns both the selector's result and
the captured segments of that single run; and `trackPathAccess` is a
no-op whenever tracking is inactive or the skip depth is nonzero — in
particular a selector consisting of one `skipTracking` region captures
nothing. -/
theorem track_captures_and_skips :
    (∀ {α : Type} (sel : TrackState → α × TrackState) (s : TrackState),
      trackDependencies sel s =
        (let s1 : TrackState :=
          { s with isTracking := true, currentPath := [], skipTrackingDepth := 0 }
         (((sel s1).1,
           (sel s1).2.currentPath.filter
             (fun segment => segment != "" && decide (segment.length < 100))),
          { (sel s1).2 with isTracking := false, currentPath := [] })) ∧
      (trackDependencies sel s).2.isTracking = false ∧
      (trackDependencies sel s).2.currentPath = []) ∧
    (∀ (cfg : ProxyConfig) (path : List String) (s : TrackState),
      s.isTracking = false ∨ s.skipTrackingDepth ≠ 0 →
        trackPathAccess cfg path s = s) ∧
    (∀ {α : Type} (cfg : ProxyConfig) (v : α) (ops : List SelOp) (s : TrackState),
      (trackDependencies (fun st => (v, runOp cfg (.skipBlock ops) st)) s).1.2 = []) := by
  refine ⟨?_, trackPathAccess_noop, ?_⟩
  · intro α sel s
    exact ⟨rfl, rfl, rfl⟩
  · intro α cfg v ops s
    rw [trackDependencies]
    rw [runOp_skipBlock]
    rfl

/-- C8 witness: the tracking theorem applied at a concrete selector that
reads `a.b`, a concrete idle state, and a concrete skip region. -/
theorem track_captures_and_skips_witness :
    (trackDependencies selT trackS0 =
      (let s1 : TrackState :=
        { trackS0 with isTracking := true, currentPath := [], skipTrackingDepth := 0 }
       (((selT s1).1,
         (selT s1).2.currentPath.filter
           (fun segment => segment != "" && decide (segment.length < 100))),
        { (selT s1).2 with isTracking := false, currentPath := [] })) ∧
      (trackDependencies selT trackS0).2.isTracking = false ∧
      (trackDependencies selT trackS0).2.currentPath = []) ∧
    trackPathAccess cfgT ["a"] trackS0 = trackS0 ∧
    (trackDependencies
      (fun st => ((5 : Nat), runOp cfgT (.skipBlock [.read ["a"]]) st))
      trackS0).1.2 = [] :=
  ⟨track_captures_and_skips.1 selT trackS0,
   track_captures_and_skips.2.1 cfgT ["a"] trackS0 (Or.inl rfl),
   track_captures_and_skips.2.2 cfgT 5 [.read ["a"]] trackS0⟩

theorem blacklist_any_iff (cfg : PersistenceConfig) (p : String) :
    ((List.range (splitDot p).length).any (fun i =>
      cfg.blacklist.any (fun b => b == joinDot ((splitDot p).take (i + 1)))) = true)
      ↔ BlacklistHit cfg p := by
  simp [BlacklistHit, List.any_eq_true, List.mem_range]

theorem allow_any_iff (cfg : PersistenceConfig) (p : String) :
    (cfg.paths.any (fun persistedPath =>
      p == persistedPath || startsWithS p (persistedPath ++ ".") ||
        startsWithS persistedPath (p ++ ".")) = true) ↔ AllowRelated cfg p := by
  simp [AllowRelated, List.any_eq_true, Bool.or_eq_true, or_assoc]

/-- C3: `shouldPersistPath` is false when persistence is disabled or the
path (or a dot-prefix ancestor) is blacklisted, true when no allow-list
is configured, and otherwise true exactly when the path is related to an
allow-listed path; with allow-list `["user"]` and blacklist
`["user.secret"]`, a write to `user.secret` never changes the batched
roots, while a write to `user.name` (once hydrated) batches the
Persistence Root `"user"`. -/
theorem shouldPersist_allow_blacklist :
    (∀ (cfg : PersistenceConfig) (p : String),
      shouldPersistPath cfg p = true ↔
        (cfg.enabled = true ∧ ¬ BlacklistHit cfg p ∧
          (cfg.paths = [] ∨ AllowRelated cfg p))) ∧
    (∀ (flags : PersistFlags) (s : BatchState),
      (addToPersistenceBatch exCfg flags s ["user", "secret"]).roots = s.roots) ∧
    (∀ (flags : PersistFlags) (s : BatchState),
      flags.isHydrating = false → flags.hasHydrated = true →
        getPersistenceRoot exCfg (joinDot ["user", "name"]) = "user" ∧
        (addToPersistenceBatch exCfg flags s ["user", "name"]).roots =
          setAdd s.roots "user") := by
  refine ⟨?_, ?_, ?_⟩
  · intro cfg p
    rw [shouldPersistPath]
    by_cases hen : cfg.enabled = true
    · simp only [hen, Bool.not_true, Bool.false_eq_true, if_false, true_and]
      by_cases hbl : BlacklistHit cfg p
      · rw [if_pos ((blacklist_any_iff cfg p).mpr hbl)]
        simp [hbl]
      · rw [if_neg (fun hc => hbl ((blacklist_any_iff cfg p).mp hc))]
        simp only [hbl, not_false_iff, true_and]
        by_cases hpe : cfg.paths.isEmpty
        · simp [List.isEmpty_iff.mp hpe]
        · rw [if_neg hpe]
          rw [allow_any_iff]
          have hne : cfg.paths ≠ [] := fun h => hpe (List.isEmpty_iff.mpr h)
          simp [hne]
    · simp only [Bool.not_eq_true] at hen
      simp [hen]
  · intro flags s
    rw [addToPersistenceBatch]
    by_cases hg : (!exCfg.enabled || flags.isHydrating || !flags.hasHydrated) = true
    · rw [if_pos hg]
    · rw [if_neg hg]
      have hsp : shouldPersistPath exCfg (joinDot ["user", "secret"]) = false := by
        decide
      simp [hsp]
  · intro flags s hh1 hh2
    refine ⟨by decide, ?_⟩
    rw [addToPersistenceBatch]
    have hg : (!exCfg.enabled || flags.isHydrating || !flags.hasHydrated) = false := by
      simp [hh1, hh2, exCfg]
    rw [hg]
    simp only [Bool.false_eq_true, if_false]
    have hsp : shouldPersistPath exCfg (joinDot ["user", "name"]) = true := by
      decide
    rw [hsp]
    simp only [if_true]
    rfl

/-- C3 witness: the persistence-filter theorem applied at the example
configuration, concrete flags and the empty batch. -/
theorem shouldPersist_allow_blacklist_witness :
    (shouldPersistPath exCfg "user.name" = true ↔
      (exCfg.enabled = true ∧ ¬ BlacklistHit exCfg "user.name" ∧
        (exCfg.paths = [] ∨ AllowRelated exCfg "user.name"))) ∧
    (addToPersistenceBatch exCfg flagsOk sB0 ["user", "secret"]).roots = sB0.roots ∧
    getPersistenceRoot exCfg (joinDot ["user", "name"]) = "user" ∧
    (addToPersistenceBatch exCfg flagsOk sB0 ["user", "name"]).roots =
      setAdd sB0.roots "user" :=
  ⟨shouldPersist_allow_blacklist.1 exCfg "user.name",
   shouldPersist_allow_blacklist.2.1 flagsOk sB0,
   shouldPersist_allow_blacklist.2.2 flagsOk sB0 rfl rfl⟩

theorem oldestIdxAux_lt (ts : List Nat) (i best bestT : Nat) (h : best < i) :
    oldestIdxAux ts i best bestT < i + ts.length := by
  induction ts generalizing i best bestT with
  | nil => simpa [oldestIdxAux] using h
  | cons t rest ih =>
    rw [oldestIdxAux]
    by_cases hc : t < bestT
    · rw [if_pos hc]
      have h2 := ih (i + 1) i t (Nat.lt_succ_self i)
      simp only [List.length_cons]
      omega
    · rw [if_neg hc]
      have h2 := ih (i + 1) best bestT (by omega)
      simp only [List.length_cons]
      omega

theorem oldestIdx_lt (ts : List Nat) (h : ts ≠ []) : oldestIdx ts < ts.length := by
  cases ts with
  | nil => exact absurd rfl h
  | cons t rest =>
    rw [oldestIdx]
    have h2 := oldestIdxAux_lt rest 1 0 t (by omega)
    simp only [List.length_cons]
    omega

theorem oldestIdxAux_min (ts : List Nat) (i best bestT : Nat) :
    (oldestIdxAux ts i best bestT = best ∧ ∀ t ∈ ts, bestT ≤ t) ∨
    (∃ j, j < ts.length ∧ oldestIdxAux ts i best bestT = i + j ∧
      ts.getD j 0 ≤ bestT ∧ ∀ t ∈ ts, ts.getD j 0 ≤ t) := by
  induction ts generalizing i best bestT with
  | nil => exact Or.inl ⟨rfl, by simp⟩
  | cons t rest ih =>
    rw [oldestIdxAux]
    by_cases hc : t < bestT
    · rw [if_pos hc]
      rcases ih (i + 1) i t with ⟨heq, hall⟩ | ⟨j, hj, heq, hle, hall⟩
      · refine Or.inr ⟨0, by simp, by simpa using heq, ?_, ?_⟩
        · simpa using Nat.le_of_lt hc
        · intro x hx
          rcases List.mem_cons.mp hx with rfl | hx
          · simp
          · simpa using hall x hx
      · refine Or.inr ⟨j + 1, by simpa using Nat.succ_lt_succ hj, by omega, ?_, ?_⟩
        · simpa [List.getD_cons_succ] using Nat.le_trans hle (Nat.le_of_lt hc)
        · intro x hx
          rcases List.mem_cons.mp hx with rfl | hx
          · simpa [List.getD_cons_succ] using hle
          · simpa [List.getD_cons_succ] using hall x hx
    · rw [if_neg hc]
      rcases ih (i + 1) best bestT with ⟨heq, hall⟩ | ⟨j, hj, heq, hle, hall⟩
      · refine Or.inl ⟨heq, ?_⟩
        intro x hx
        rcases List.mem_cons.mp hx with rfl | hx
        · omega
        · exact hall x hx
      · refine Or.inr ⟨j + 1, by simpa using Nat.succ_lt_succ hj, by omega, ?_, ?_⟩
        · simpa [List.getD_cons_succ] using Nat.le_trans hle (by omega)
        · intro x hx
          rcases List.mem_cons.mp hx with rfl | hx
          · simp only [List.getD_cons_succ]
            omega
          · simpa [List.getD_cons_succ] using hall x hx

/-- The `evictOldest` scan finds a minimal timestamp. -/
theorem oldestIdx_min (ts : List Nat) :
    ∀ t ∈ ts, ts.getD (oldestIdx ts) 0 ≤ t := by
  cases ts with
  | nil => simp
  | cons t rest =>
    rw [oldestIdx]
    rcases oldestIdxAux_min rest 1 0 t with ⟨heq, hall⟩ | ⟨j, hj, heq, hle, hall⟩
    · rw [heq]
      intro x hx
      rcases List.mem_cons.mp hx with rfl | hx
      · simp
      · simpa using hall x hx
    · rw [heq]
      intro x hx
      have hgd : (t :: rest).getD (1 + j) 0 = rest.getD j 0 := by
        have : 1 + j = j + 1 := by omega
        rw [this, List.getD_cons_succ]
      rcases List.mem_cons.mp hx with rfl | hx
      · rw [hgd]; exact hle
      · rw [hgd]; exact hall x hx

theorem oldestIdxAux_append (rest : List Nat) (c i best bestT : Nat)
    (hbc : ¬ c < bestT) (hrc : ∀ t ∈ rest, t < c) :
    oldestIdxAux (rest ++ [c]) i best bestT = oldestIdxAux rest i best bestT := by
  induction rest generalizing i best bestT with
  | nil => simp [oldestIdxAux, hbc]
  | cons t rs ih =>
    rw [List.cons_append, oldestIdxAux, oldestIdxAux]
    by_cases hc : t < bestT
    · rw [if_pos hc, if_pos hc]
      exact ih (i + 1) i t (by have := hrc t (by simp); omega)
        (fun x hx => hrc x (by simp [hx]))
    · rw [if_neg hc, if_neg hc]
      exact ih (i + 1) best bestT hbc (fun x hx => hrc x (by simp [hx]))

/-- Appending a fresh (largest) timestamp does not change which entry is
oldest. -/
theorem oldestIdx_append (ts : List Nat) (c : Nat) (hne : ts ≠ [])
    (hall : ∀ t ∈ ts, t < c) : oldestIdx (ts ++ [c]) = oldestIdx ts := by
  cases ts with
  | nil => exact absurd rfl hne
  | cons t rest =>
    rw [List.cons_append, oldestIdx, oldestIdx]
    exact oldestIdxAux_append rest c 1 0 t
      (by have := hall t (by simp); omega)
      (fun x hx => hall x (by simp [hx]))

theorem nodup_not_mem_eraseIdx (l : List Nat) (hn : l.Nodup) :
    ∀ i, i < l.length → l.getD i 0 ∉ l.eraseIdx i := by
  induction l with
  | nil => intro i hi; simp at hi
  | cons x xs ih =>
    intro i hi
    cases i with
    | zero =>
      simpa using (List.nodup_cons.mp hn).1
    | succ j =>
      simp only [List.getD_cons_succ, List.eraseIdx_cons_succ]
      intro hmem
      rcases List.mem_cons.mp hmem with heq | hmem
      · have hj : j < xs.length := by simpa using hi
        have : xs.getD j 0 ∈ xs := by
          rw [List.getD_eq_getElem _ _ hj]
          exact List.getElem_mem hj
        rw [heq] at this
        exact (List.nodup_cons.mp hn).1 this
      · exact ih (List.nodup_cons.mp hn).2 j (by simpa using hi) hmem

/-- One insertion preserves the invariant and the size bound. -/
theorem lruAdd_preserves (cfg : ProxyConfig) (s : ProxyState) (key : Nat)
    (hinv : ProxyInv s) (hlen : s.lruKeys.length ≤ cfg.maxProxyCacheSize) :
    ProxyInv (lruAdd cfg s key) ∧
    (lruAdd cfg s key).lruKeys.length ≤ cfg.maxProxyCacheSize := by
  obtain ⟨hpar, hcl, hnd⟩ := hinv
  rw [lruAdd]
  cases hf : s.lruKeys.findIdx? (fun k => k == key) with
  | some i =>
    refine ⟨⟨by simpa using hpar, ?_, hnd⟩, hlen⟩
    intro t ht
    rcases List.mem_or_eq_of_mem_set ht with ht | rfl
    · exact Nat.lt_succ_of_lt (hcl t ht)
    · exact Nat.lt_succ_self _
  | none =>
    have hkey : key ∉ s.lruKeys := by
      intro hmem
      have := (List.findIdx?_eq_none_iff.mp hf) key hmem
      simp at this
    have hnd1 : (s.lruKeys ++ [key]).Nodup := by
      rw [List.nodup_append]
      exact ⟨hnd, List.nodup_singleton key, by simpa using hkey⟩
    have hcl1 : ∀ t ∈ s.lruStamps ++ [s.clock], t < s.clock + 1 := by
      intro t ht
      rcases List.mem_append.mp ht with ht | ht
      · exact Nat.lt_succ_of_lt (hcl t ht)
      · simp at ht
        omega
    by_cases hcap : cfg.maxProxyCacheSize < (s.lruKeys ++ [key]).length
    · rw [if_pos (by simpa using hcap)]
      rw [evictOldest]
      rw [if_neg (by simp)]
      have hilt : oldestIdx (s.lruStamps ++ [s.clock]) <
          (s.lruStamps ++ [s.clock]).length :=
        oldestIdx_lt _ (by simp)
      have hilt2 : oldestIdx (s.lruStamps ++ [s.clock]) <
          (s.lruKeys ++ [key]).length := by
        simpa [hpar] using hilt
      refine ⟨⟨?_, ?_, ?_⟩, ?_⟩
      · rw [List.length_eraseIdx_of_lt hilt, List.length_eraseIdx_of_lt hilt2]
        simp [hpar]
      · intro t ht
        exact hcl1 t ((List.eraseIdx_sublist _ _).mem ht)
      · exact hnd1.sublist (List.eraseIdx_sublist _ _)
      · rw [List.length_eraseIdx_of_lt hilt2]
        simp only [List.length_append, List.length_cons, List.length_nil]
        omega
    · rw [if_neg (by simpa using hcap)]
      refine ⟨⟨by simp [hpar], hcl1, hnd1⟩, ?_⟩
      simp only [List.length_append, List.length_cons, List.length_nil] at hcap ⊢
      omega

/-- Any number of insertions keeps the recency index within the bound. -/
theorem lruAdd_fold_bound (cfg : ProxyConfig) (ks : List Nat) (s : ProxyState)
    (hinv : ProxyInv s) (hlen : s.lruKeys.length ≤ cfg.maxProxyCacheSize) :
    ProxyInv (ks.foldl (lruAdd cfg) s) ∧
    (ks.foldl (lruAdd cfg) s).lruKeys.length ≤ cfg.maxProxyCacheSize := by
  induction ks generalizing s with
  | nil => exact ⟨hinv, hlen⟩
  | cons k rest ih =>
    have h1 := lruAdd_preserves cfg s k hinv hlen
    exact ih (lruAdd cfg s k) h1.1 h1.2

/-- Inserting a fresh key at capacity evicts exactly the
least-recently-touched entry, from the recency index and the cache. -/
theorem lruAdd_at_capacity (cfg : ProxyConfig) (s : ProxyState) (key : Nat)
    (hinv : ProxyInv s)
    (hcap : s.lruKeys.length = cfg.maxProxyCacheSize)
    (hpos : 1 ≤ cfg.maxProxyCacheSize)
    (hnew : key ∉ s.lruKeys) :
    (lruAdd cfg s key).lruKeys =
      s.lruKeys.eraseIdx (oldestIdx s.lruStamps) ++ [key] ∧
    (lruAdd cfg s key).lruStamps =
      s.lruStamps.eraseIdx (oldestIdx s.lruStamps) ++ [s.clock] ∧
    (lruAdd cfg s key).cache = s.cache.filter
      (fun e => e.1 != s.lruKeys.getD (oldestIdx s.lruStamps) 0) ∧
    (lruAdd cfg s key).lruKeys.length = cfg.maxProxyCacheSize ∧
    (∀ t ∈ s.lruStamps, s.lruStamps.getD (oldestIdx s.lruStamps) 0 ≤ t) ∧
    s.lruKeys.getD (oldestIdx s.lruStamps) 0 ∉ (lruAdd cfg s key).lruKeys := by
  obtain ⟨hpar, hcl, hnd⟩ := hinv
  have hf : s.lruKeys.findIdx? (fun k => k == key) = none := by
    rw [List.findIdx?_eq_none_iff]
    intro x hx
    simp only [beq_eq_false_iff_ne, ne_eq]
    intro hxe
    exact hnew (hxe ▸ hx)
  have hsne : s.lruStamps ≠ [] := by
    intro hsn
    rw [hsn] at hpar
    simp only [List.length_nil] at hpar
    omega
  have hidx : oldestIdx (s.lruStamps ++ [s.clock]) = oldestIdx s.lruStamps :=
    oldestIdx_append s.lruStamps s.clock hsne hcl
  have hilt : oldestIdx s.lruStamps < s.lruStamps.length :=
    oldestIdx_lt s.lruStamps hsne
  have hiltK : oldestIdx s.lruStamps < s.lruKeys.length := by omega
  rw [lruAdd, hf]
  simp only
  rw [if_pos (by simp [hcap])]
  rw [evictOldest]
  rw [if_neg (by simp)]
  simp only [hidx]
  have hkeys : (s.lruKeys ++ [key]).eraseIdx (oldestIdx s.lruStamps) =
      s.lruKeys.eraseIdx (oldestIdx s.lruStamps) ++ [key] :=
    List.eraseIdx_append_of_lt_length hiltK [key]
  have hstamps : (s.lruStamps ++ [s.clock]).eraseIdx (oldestIdx s.lruStamps) =
      s.lruStamps.eraseIdx (oldestIdx s.lruStamps) ++ [s.clock] :=
    List.eraseIdx_append_of_lt_length hilt [s.clock]
  have hgd : (s.lruKeys ++ [key]).getD (oldestIdx s.lruStamps) 0 =
      s.lruKeys.getD (oldestIdx s.lruStamps) 0 :=
    List.getD_append _ _ _ _ hiltK
  refine ⟨by rw [hkeys], by rw [hstamps], by rw [hgd], ?_, oldestIdx_min _, ?_⟩
  · rw [hkeys]
    simp only [List.length_append, List.length_cons, List.length_nil]
    rw [List.length_eraseIdx_of_lt hiltK]
    omega
  · rw [hkeys]
    intro hmem
    rcases List.mem_append.mp hmem with hmem | hmem
    · exact nodup_not_mem_eraseIdx s.lruKeys hnd _ hiltK hmem
    · simp only [List.mem_singleton] at hmem
      apply hnew
      rw [← hmem]
      rw [List.getD_eq_getElem _ _ hiltK]
      exact List.getElem_mem hiltK

theorem lruTouch_cache (s : ProxyState) (key : Nat) :
    (lruTouch s key).cache = s.cache := by
  rw [lruTouch]
  cases s.lruKeys.findIdx? (fun k => k == key) <;> rfl

/-- A depth-0 wrap with a cached Wrapper is a cache hit: the cached
Wrapper itself is returned and its recency is refreshed. -/
theorem wrap_cache_hit (cfg : ProxyConfig) (s : ProxyState) (oid : Nat)
    (ext : Bool) (path : List String) (en : Nat × Nat)
    (hen : cfg.enabled = true)
    (hfind : s.cache.find? (fun e => e.1 == oid) = some en) :
    createAdvancedProxy cfg s (.obj oid ext) path 0 =
      (.proxy en.2, lruTouch s oid) := by
  simp [createAdvancedProxy, hen, hfind]

/-- A depth-0 wrap of an extensible object with no cached Wrapper
constructs a fresh Wrapper, caches it under the object's own identity
and records it in the recency index. -/
theorem wrap_cache_miss (cfg : ProxyConfig) (s : ProxyState) (oid : Nat)
    (path : List String) (hen : cfg.enabled = true)
    (hfind : s.cache.find? (fun e => e.1 == oid) = none) :
    createAdvancedProxy cfg s (.obj oid true) path 0 =
      (.proxy s.nextId,
       lruAdd cfg
         { s with nextId := s.nextId + 1,
                  cache := s.cache ++ [(oid, s.nextId)] } oid) := by
  simp [createAdvancedProxy, hen, hfind]

/-- An insertion either leaves the cache alone or filters out exactly one
evicted key, which was already in the recency index and differs from any
key absent from it. -/
theorem lruAdd_cache_cases (cfg : ProxyConfig) (s : ProxyState) (key : Nat)
    (hpar : s.lruStamps.length = s.lruKeys.length)
    (hcl : ∀ t ∈ s.lruStamps, t < s.clock)
    (hpos : 1 ≤ cfg.maxProxyCacheSize) :
    (lruAdd cfg s key).cache = s.cache ∨
    (∃ ev, ev ∈ s.lruKeys ∧ key ∉ s.lruKeys ∧
      (lruAdd cfg s key).cache = s.cache.filter (fun e => e.1 != ev)) := by
  rw [lruAdd]
  cases hf : s.lruKeys.findIdx? (fun k => k == key) with
  | some i => exact Or.inl rfl
  | none =>
    have hkey : key ∉ s.lruKeys := by
      intro hmem
      have := (List.findIdx?_eq_none_iff.mp hf) key hmem
      simp at this
    by_cases hcap : cfg.maxProxyCacheSize < s.lruKeys.length + 1
    · have hkne : s.lruKeys ≠ [] := by
        intro h
        rw [h] at hcap
        simp at hcap
        omega
      have hsne : s.lruStamps ≠ [] := by
        intro hsn
        rw [hsn] at hpar
        exact hkne (List.length_eq_zero.mp hpar.symm)
      rw [if_pos (by simpa using hcap)]
      rw [evictOldest]
      rw [if_neg (by simp)]
      have hidx : oldestIdx (s.lruStamps ++ [s.clock]) = oldestIdx s.lruStamps :=
        oldestIdx_append s.lruStamps s.clock hsne hcl
      have hilt : oldestIdx s.lruStamps < s.lruKeys.length := by
        have := oldestIdx_lt s.lruStamps hsne
        omega
      have hgd : (s.lruKeys ++ [key]).getD (oldestIdx s.lruStamps) 0 =
          s.lruKeys.getD (oldestIdx s.lruStamps) 0 :=
        List.getD_append _ _ _ _ hilt
      refine Or.inr ⟨s.lruKeys.getD (oldestIdx s.lruStamps) 0, ?_, hkey, ?_⟩
      · rw [List.getD_eq_getElem _ _ hilt]
        exact List.getElem_mem hilt
      · simp only [hidx, hgd]
    · rw [if_neg (by simpa using hcap)]
      exact Or.inl rfl

/-- Wrapping the same extensible object twice at depth 0 (with at least
one cache slot configured) returns the identical Wrapper both times. -/
theorem wrap_twice_same (cfg : ProxyConfig) (s : ProxyState) (oid : Nat)
    (path path' : List String) (hen : cfg.enabled = true) (hinv : ProxyInv s)
    (hpos : 1 ≤ cfg.maxProxyCacheSize) :
    (createAdvancedProxy cfg
       (createAdvancedProxy cfg s (.obj oid true) path 0).2
       (.obj oid true) path' 0).1 =
     (createAdvancedProxy cfg s (.obj oid true) path 0).1 := by
  obtain ⟨hpar, hcl, hnd⟩ := hinv
  cases hfind : s.cache.find? (fun e => e.1 == oid) with
  | some en =>
    rw [wrap_cache_hit cfg s oid true path en hen hfind]
    rw [wrap_cache_hit cfg (lruTouch s oid) oid true path' en hen
      (by rw [lruTouch_cache, hfind])]
  | none =>
    rw [wrap_cache_miss cfg s oid path hen hfind]
    have hcases := lruAdd_cache_cases cfg
      { s with nextId := s.nextId + 1, cache := s.cache ++ [(oid, s.nextId)] }
      oid hpar hcl hpos
    have hnone : ∀ x ∈ s.cache, ¬ (x.1 == oid) = true :=
      List.find?_eq_none.mp hfind
    rcases hcases with hsame | ⟨ev, hev, hkeyout, hfil⟩
    · have hfind2 : (lruAdd cfg
          { s with nextId := s.nextId + 1,
                   cache := s.cache ++ [(oid, s.nextId)] } oid).cache.find?
          (fun e => e.1 == oid) = some (oid, s.nextId) := by
        rw [hsame]
        simp only
        rw [List.find?_append]
        rw [List.find?_eq_none.mpr hnone]
        simp [List.find?]
      rw [wrap_cache_hit cfg _ oid true path' (oid, s.nextId) hen hfind2]
    · have hevne : ¬ (oid == ev) = true := by
        simp only [beq_iff_eq]
        intro h
        exact hkeyout (h ▸ hev)
      have hfind2 : (lruAdd cfg
          { s with nextId := s.nextId + 1,
                   cache := s.cache ++ [(oid, s.nextId)] } oid).cache.find?
          (fun e => e.1 == oid) = some (oid, s.nextId) := by
        rw [hfil]
        simp only [List.filter_append]
        rw [List.find?_append]
        have h1 : (s.cache.filter (fun e => e.1 != ev)).find?
            (fun e => e.1 == oid) = none := by
          rw [List.find?_eq_none]
          intro x hx
          exact hnone x (List.mem_of_mem_filter hx)
        rw [h1]
        simp [List.filter, List.find?, hevne, bne]
      rw [wrap_cache_hit cfg _ oid true path' (oid, s.nextId) hen hfind2]

/-- C4: `wrap` returns primitives and `null` unchanged, returns any value
unchanged when wrapping is globally disabled, returns the identical
cached Wrapper on a cache hit while refreshing its recency stamp, and
therefore wrapping the same extensible object twice (depth 0, at least
one cache slot) yields the identical Wrapper instance. -/
theorem wrap_identity_cache :
    (∀ (cfg : ProxyConfig) (s : ProxyState) (path : List String) (depth n : Nat),
      createAdvancedProxy cfg s (.prim n) path depth = (.raw (.prim n), s)) ∧
    (∀ (cfg : ProxyConfig) (s : ProxyState) (v : JSVal) (path : List String)
        (depth : Nat), cfg.enabled = false →
      createAdvancedProxy cfg s v path depth = (.raw v, s)) ∧
    (∀ (cfg : ProxyConfig) (s : ProxyState) (oid : Nat) (ext : Bool)
        (path : List String) (en : Nat × Nat),
      cfg.enabled = true → s.cache.find? (fun e => e.1 == oid) = some en →
        createAdvancedProxy cfg s (.obj oid ext) path 0 =
          (.proxy en.2, lruTouch s oid)) ∧
    (∀ (s : ProxyState) (oid i : Nat),
      s.lruKeys.findIdx? (fun k => k == oid) = some i →
        (lruTouch s oid).lruStamps = s.lruStamps.set i s.clock) ∧
    (∀ (cfg : ProxyConfig) (s : ProxyState) (oid : Nat) (path path' : List String),
      cfg.enabled = true → ProxyInv s → 1 ≤ cfg.maxProxyCacheSize →
        (createAdvancedProxy cfg
          (createAdvancedProxy cfg s (.obj oid true) path 0).2
          (.obj oid true) path' 0).1 =
        (createAdvancedProxy cfg s (.obj oid true) path 0).1) := by
  refine ⟨fun cfg s path depth n => rfl, ?_, wrap_cache_hit, ?_, wrap_twice_same⟩
  · intro cfg s v path depth hdis
    cases v with
    | prim n => rfl
    | obj oid ext => simp [createAdvancedProxy, hdis]
  · intro s oid i hf
    rw [lruTouch, hf]

/-- C4 witness: the wrap theorem applied at concrete values — a
primitive, a disabled configuration, a cache hit on object `10`, and a
double wrap of fresh object `7`. -/
theorem wrap_identity_cache_witness :
    createAdvancedProxy cfgT sP0 (.prim 3) ["a"] 0 = (.raw (.prim 3), sP0) ∧
    createAdvancedProxy cfgOff sP0 (.obj 7 true) ["a"] 0 =
      (.raw (.obj 7 true), sP0) ∧
    createAdvancedProxy cfgT sPC (.obj 10 true) ["a"] 0 =
      (.proxy (10, 100).2, lruTouch sPC 10) ∧
    (lruTouch sPC 10).lruStamps = sPC.lruStamps.set 0 sPC.clock ∧
    (createAdvancedProxy cfgT
       (createAdvancedProxy cfgT sP0 (.obj 7 true) ["a"] 0).2
       (.obj 7 true) ["b"] 0).1 =
     (createAdvancedProxy cfgT sP0 (.obj 7 true) ["a"] 0).1 :=
  ⟨wrap_identity_cache.1 cfgT sP0 ["a"] 0 3,
   wrap_identity_cache.2.1 cfgOff sP0 (.obj 7 true) ["a"] 0 rfl,
   wrap_identity_cache.2.2.1 cfgT sPC 10 true ["a"] (10, 100) rfl rfl,
   wrap_identity_cache.2.2.2.1 sPC 10 0 rfl,
   wrap_identity_cache.2.2.2.2 cfgT sP0 7 ["a"] ["b"] rfl
     ⟨rfl, by simp [sP0], List.nodup_nil⟩ (by decide)⟩

/-- C7: inserting a distinct object into a full recency index evicts
exactly the least-recently-touched entry from both the cache and the
index, and any sequence of insertions leaves the index no larger than
the configured maximum cache size. -/
theorem lru_bounded_eviction :
    (∀ (cfg : ProxyConfig) (s : ProxyState) (key : Nat),
      ProxyInv s → s.lruKeys.length = cfg.maxProxyCacheSize →
      1 ≤ cfg.maxProxyCacheSize → key ∉ s.lruKeys →
        (lruAdd cfg s key).lruKeys =
          s.lruKeys.eraseIdx (oldestIdx s.lruStamps) ++ [key] ∧
        (lruAdd cfg s key).lruStamps =
          s.lruStamps.eraseIdx (oldestIdx s.lruStamps) ++ [s.clock] ∧
        (lruAdd cfg s key).cache = s.cache.filter
          (fun e => e.1 != s.lruKeys.getD (oldestIdx s.lruStamps) 0) ∧
        (lruAdd cfg s key).lruKeys.length = cfg.maxProxyCacheSize ∧
        (∀ t ∈ s.lruStamps, s.lruStamps.getD (oldestIdx s.lruStamps) 0 ≤ t) ∧
        s.lruKeys.getD (oldestIdx s.lruStamps) 0 ∉ (lruAdd cfg s key).lruKeys) ∧
    (∀ (cfg : ProxyConfig) (ks : List Nat) (s : ProxyState),
      ProxyInv s → s.lruKeys.length ≤ cfg.maxProxyCacheSize →
        (ks.foldl (lruAdd cfg) s).lruKeys.length ≤ cfg.maxProxyCacheSize) :=
  ⟨lruAdd_at_capacity,
   fun cfg ks s hinv hlen => (lruAdd_fold_bound cfg ks s hinv hlen).2⟩

/-- C7 witness: the eviction theorem applied at a full two-slot index
(object `10` oldest) receiving fresh object `12`, and at a three-object
insertion sequence from the empty state. -/
theorem lru_bounded_eviction_witness :
    ((lruAdd cfgL sLRU 12).lruKeys =
        sLRU.lruKeys.eraseIdx (oldestIdx sLRU.lruStamps) ++ [12] ∧
      (lruAdd cfgL sLRU 12).lruStamps =
        sLRU.lruStamps.eraseIdx (oldestIdx sLRU.lruStamps) ++ [sLRU.clock] ∧
      (lruAdd cfgL sLRU 12).cache = sLRU.cache.filter
        (fun e => e.1 != sLRU.lruKeys.getD (oldestIdx sLRU.lruStamps) 0) ∧
      (lruAdd cfgL sLRU 12).lruKeys.length = cfgL.maxProxyCacheSize ∧
      (∀ t ∈ sLRU.lruStamps, sLRU.lruStamps.getD (oldestIdx sLRU.lruStamps) 0 ≤ t) ∧
      sLRU.lruKeys.getD (oldestIdx sLRU.lruStamps) 0 ∉ (lruAdd cfgL sLRU 12).lruKeys) ∧
    ([12, 13, 14].foldl (lruAdd cfgL) sP0).lruKeys.length ≤ cfgL.maxProxyCacheSize :=
  ⟨lru_bounded_eviction.1 cfgL sLRU 12
      ⟨rfl, by decide, by decide⟩ rfl (by decide) (by decide),
   lru_bounded_eviction.2 cfgL [12, 13, 14] sP0
      ⟨rfl, by simp [sP0], List.nodup_nil⟩ (by decide)⟩

theorem persistSlice_fields (cfg : PersistenceConfig) (env : PersistEnv)
    (s : BatchState) (root : String) :
    (persistSlice cfg env s root).writes =
      s.writes ++ (sliceOutcome cfg env root).toList ∧
    (persistSlice cfg env s root).roots = s.roots ∧
    (persistSlice cfg env s root).timerArmed = s.timerArmed ∧
    (persistSlice cfg env s root).isPersisting = s.isPersisting := by
  rw [persistSlice, sliceOutcome]
  by_cases he : cfg.enabled
  · simp only [he, Bool.not_true, Bool.false_eq_true, if_false]
    cases env.store with
    | none => simp
    | some store =>
      simp only
      cases navPath store (splitDot root) with
      | none => simp
      | some value =>
        simp only
        by_cases hs : serializeOk value
        · by_cases ha : env.adapterFails ("persisted_state_" ++ root)
          · simp [hs, ha]
          · simp [hs, ha]
        · simp [hs]
  · simp only [Bool.not_eq_true] at he
    simp [he]

theorem foldl_persistSlice (cfg : PersistenceConfig) (env : PersistEnv)
    (roots : List String) (s : BatchState) :
    (roots.foldl (persistSlice cfg env) s).writes =
      s.writes ++ roots.flatMap (fun r => (sliceOutcome cfg env r).toList) ∧
    (roots.foldl (persistSlice cfg env) s).roots = s.roots ∧
    (roots.foldl (persistSlice cfg env) s).timerArmed = s.timerArmed ∧
    (roots.foldl (persistSlice cfg env) s).isPersisting = s.isPersisting := by
  induction roots generalizing s with
  | nil => simp
  | cons r rest ih =>
    obtain ⟨h1, h2, h3, h4⟩ := persistSlice_fields cfg env s r
    obtain ⟨g1, g2, g3, g4⟩ := ih (persistSlice cfg env s r)
    refine ⟨?_, by rw [List.foldl_cons, g2, h2], by rw [List.foldl_cons, g3, h3],
      by rw [List.foldl_cons, g4, h4]⟩
    rw [List.foldl_cons, g1, h1]
    simp [List.append_assoc]

/-- C5: a flush never starts while one is in progress; otherwise the
pending roots are snapshotted and cleared before any persisting, each
snapshotted root contributes its own outcome independently of its
siblings' failures, roots injected during the flush are exactly what
remains pending, the in-progress flag is dropped, and a new debounce
cycle is armed when anything was injected. -/
theorem batch_flush_protocol :
    (∀ (cfg : PersistenceConfig) (env : PersistEnv) (s : BatchState)
        (inj : List String), s.isPersisting = true →
      processPersistenceBatch cfg env s inj = s) ∧
    (∀ (cfg : PersistenceConfig) (env : PersistEnv) (s : BatchState)
        (inj : List String), env.isBrowser = true → s.isPersisting = false →
      s.roots ≠ [] →
        (processPersistenceBatch cfg env s inj).writes =
          s.writes ++ s.roots.flatMap (fun r => (sliceOutcome cfg env r).toList) ∧
        (∀ r w, r ∈ s.roots → sliceOutcome cfg env r = some w →
          w ∈ (processPersistenceBatch cfg env s inj).writes) ∧
        (processPersistenceBatch cfg env s inj).roots = inj.foldl setAdd [] ∧
        (processPersistenceBatch cfg env s inj).isPersisting = false ∧
        (inj ≠ [] → (processPersistenceBatch cfg env s inj).timerArmed = true)) := by
  constructor
  · intro cfg env s inj hp
    rw [processPersistenceBatch]
    by_cases hw : env.isBrowser = true
    · rw [hw]
      simp [hp]
    · simp only [Bool.not_eq_true] at hw
      simp [hw]
  · intro cfg env s inj hw hp hne
    have hproc : processPersistenceBatch cfg env s inj =
        (let s2 := s.roots.foldl (persistSlice cfg env)
          { s with isPersisting := true, roots := [] }
         let s3 := { s2 with roots := inj.foldl setAdd s2.roots,
                             timerArmed := s2.timerArmed || !inj.isEmpty }
         let s4 := { s3 with isPersisting := false }
         if s4.roots.isEmpty then s4 else schedulePersistenceBatch s4) := by
      rw [processPersistenceBatch, hw]
      have hre : (s.isPersisting || s.roots.isEmpty) = false := by
        rw [hp]
        simpa [List.isEmpty_iff] using hne
      simp [hre]
    obtain ⟨f1, f2, f3, f4⟩ := foldl_persistSlice cfg env s.roots
      { s with isPersisting := true, roots := [] }
    have hwr : (processPersistenceBatch cfg env s inj).writes =
        s.writes ++ s.roots.flatMap (fun r => (sliceOutcome cfg env r).toList) := by
      rw [hproc]
      simp only [schedulePersistenceBatch]
      split <;> simpa using f1
    have hro : (processPersistenceBatch cfg env s inj).roots =
        inj.foldl setAdd [] := by
      rw [hproc]
      simp only [schedulePersistenceBatch]
      split <;> simp [f2]
    refine ⟨hwr, ?_, hro, ?_, ?_⟩
    · intro r w hr hout
      rw [hwr]
      apply List.mem_append_right
      rw [List.mem_flatMap]
      exact ⟨r, hr, by simp [hout]⟩
    · rw [hproc]
      simp only [schedulePersistenceBatch]
      split <;> rfl
    · intro hinj
      rw [hproc]
      have hie : inj.isEmpty = false := by
        simpa [List.isEmpty_iff] using hinj
      simp only [schedulePersistenceBatch, hie, Bool.not_false, Bool.or_true]
      split <;> rfl

/-- C5 witness: the flush theorem applied at a flush already in progress
and at a concrete three-root batch whose `bad` root fails serialization
and whose `missing` root is absent, with `late` injected mid-flush. -/
theorem batch_flush_protocol_witness :
    processPersistenceBatch cfgAll envP sBusy ["x"] = sBusy ∧
    (processPersistenceBatch cfgAll envP sBF ["late"]).writes =
      sBF.writes ++ sBF.roots.flatMap (fun r => (sliceOutcome cfgAll envP r).toList) ∧
    ("persisted_state_user", JVal.obj [("name", .str "X")]) ∈
      (processPersistenceBatch cfgAll envP sBF ["late"]).writes ∧
    (processPersistenceBatch cfgAll envP sBF ["late"]).roots =
      ["late"].foldl setAdd [] ∧
    (processPersistenceBatch cfgAll envP sBF ["late"]).isPersisting = false ∧
    (processPersistenceBatch cfgAll envP sBF ["late"]).timerArmed = true := by
  have h1 := batch_flush_protocol.1 cfgAll envP sBusy ["x"] rfl
  have h2 := batch_flush_protocol.2 cfgAll envP sBF ["late"] rfl rfl (by simp [sBF])
  refine ⟨h1, h2.1, ?_, h2.2.2.1, h2.2.2.2.1, h2.2.2.2.2 (by simp)⟩
  exact h2.2.1 "user" ("persisted_state_user", JVal.obj [("name", .str "X")])
    (by simp [sBF]) rfl

theorem startsWithS_append_self (a b : String) : startsWithS (a ++ b) a = true := by
  rw [startsWithS, data_append, List.isPrefixOf_iff_prefix]
  exact ⟨b.data, rfl⟩

theorem dropPfx_append (a b : String) : dropPfx (a ++ b) a = b := by
  rw [dropPfx, data_append, List.drop_left]

theorem startsWith_reconstruct (k pfx : String)
    (h : startsWithS k pfx = true) : pfx ++ dropPfx k pfx = k := by
  rw [startsWithS, List.isPrefixOf_iff_prefix] at h
  obtain ⟨rest, hrest⟩ := h
  rw [dropPfx, ← hrest]
  rw [List.drop_left]
  cases k
  cases pfx
  simp only [String.data] at hrest
  rw [string_mk_append]
  exact congrArg String.mk hrest

theorem splitDot_ne_nil (p : String) : splitDot p ≠ [] := by
  rw [splitDot]
  intro h
  exact splitDotChars_ne_nil p.data (List.map_eq_nil_iff.mp h)

theorem splitDot_singleton (p x : String) (h : splitDot p = [x]) : x = p := by
  have := joinDot_splitDot p
  rw [h] at this
  simpa [joinDot] using this

theorem setKeyA_find_self (fs : List (String × JVal)) (k : String) (v : JVal) :
    (setKeyA fs k v).find? (fun e => e.1 == k) = some (k, v) := by
  induction fs with
  | nil => simp [setKeyA, List.find?]
  | cons e rest ih =>
    rw [setKeyA]
    by_cases he : (e.1 == k) = true
    · rw [if_pos he]
      simp [List.find?]
    · rw [if_neg he]
      rw [Bool.not_eq_true] at he
      simp [List.find?, he, ih]

theorem setKeyA_find_other (fs : List (String × JVal)) (k k' : String) (v : JVal)
    (hne : k ≠ k') :
    (setKeyA fs k' v).find? (fun e => e.1 == k) = fs.find? (fun e => e.1 == k) := by
  have hkk : (k' == k) = false := beq_eq_false_iff_ne.mpr (fun h => hne h.symm)
  induction fs with
  | nil => simp [setKeyA, List.find?, hkk]
  | cons e rest ih =>
    rw [setKeyA]
    by_cases he : (e.1 == k') = true
    · rw [if_pos he]
      have he' : e.1 = k' := beq_iff_eq.mp he
      have hek : (e.1 == k) = false := by
        rw [he']
        exact hkk
      simp [List.find?, hek, hkk]
    · rw [if_neg he]
      by_cases hek : (e.1 == k) = true
      · simp [List.find?, hek]
      · rw [Bool.not_eq_true] at hek
        simp [List.find?, hek, ih]

theorem jsGet_jSetKey_self (m : JVal) (k : String) (v : JVal)
    (hm : isObjB m = true) : jsGet (jSetKey m k v) k = v := by
  cases m with
  | obj fs => simp [jSetKey, jsGet, setKeyA_find_self]
  | null => simp [isObjB] at hm
  | undefined => simp [isObjB] at hm
  | num n => simp [isObjB] at hm
  | str s => simp [isObjB] at hm
  | unserializable => simp [isObjB] at hm

theorem jsGet_jSetKey_other (m : JVal) (k k' : String) (v : JVal)
    (hne : k ≠ k') : jsGet (jSetKey m k' v) k = jsGet m k := by
  cases m with
  | obj fs => simp [jSetKey, jsGet, setKeyA_find_other fs k k' v hne]
  | null => rfl
  | undefined => rfl
  | num n => rfl
  | str s => rfl
  | unserializable => rfl

theorem jSetKey_obj (m : JVal) (k : String) (v : JVal)
    (hm : isObjB m = true) : isObjB (jSetKey m k v) = true := by
  cases m <;> simp_all [jSetKey, isObjB]

theorem setDeepIn_obj (m : JVal) (segs : List String) (v : JVal)
    (hm : isObjB m = true) : isObjB (setDeepIn m segs v) = true := by
  cases segs with
  | nil => simpa [setDeepIn] using hm
  | cons a rest =>
    cases rest with
    | nil => exact jSetKey_obj m a v hm
    | cons b rest2 => exact jSetKey_obj m a _ hm

theorem blobMerge_obj (fs : List (String × JVal)) (m : JVal)
    (hm : isObjB m = true) :
    isObjB (fs.foldl (fun m kv => if jHas m kv.1 then jSetKey m kv.1 kv.2 else m) m)
      = true := by
  induction fs generalizing m with
  | nil => exact hm
  | cons kv rest ih =>
    rw [List.foldl_cons]
    by_cases hh : jHas m kv.1
    · exact ih _ (by rw [if_pos hh]; exact jSetKey_obj m kv.1 kv.2 hm)
    · exact ih _ (by rw [if_neg hh]; exact hm)

theorem mergeSliceStep_obj (cfg : PersistenceConfig) (storage : Storage)
    (st : JVal × List String) (k : String) (hm : isObjB st.1 = true) :
    isObjB (mergeSliceStep cfg storage st k).1 = true := by
  rw [mergeSliceStep]
  by_cases h1 : shouldPersistPath cfg (dropPfx k "persisted_state_") = true
  · simp only [h1, Bool.not_true, Bool.false_eq_true, if_false]
    by_cases h2 : st.2.any (fun root =>
        startsWithS (dropPfx k "persisted_state_") (root ++ ".")) = true
    · rw [if_pos h2]
      exact hm
    · rw [if_neg h2]
      cases hval : storGet storage k with
      | none => exact hm
      | some sv =>
        cases sv with
        | empty => exact hm
        | malformed => exact hm
        | val pv =>
          simp only
          by_cases hlen : ((splitDot (dropPfx k "persisted_state_")).length == 1) = true
          · rw [if_pos hlen]
            exact jSetKey_obj _ _ _ hm
          · rw [if_neg hlen]
            exact setDeepIn_obj _ _ _ hm
  · simp only [Bool.not_eq_true] at h1
    simp [h1, hm]

theorem perm_insertByDepth (x : String) (l : List String) :
    (insertByDepth x l).Perm (x :: l) := by
  induction l with
  | nil => exact List.Perm.refl _
  | cons y ys ih =>
    rw [insertByDepth]
    by_cases h : keyDepth x < keyDepth y
    · rw [if_pos h]
    · rw [if_neg h]
      exact (ih.cons y).trans (List.Perm.swap x y ys)

theorem sortByDepth_aux_perm (l acc : List String) :
    (l.foldl (fun a k => insertByDepth k a) acc).Perm (acc ++ l) := by
  induction l generalizing acc with
  | nil => simp
  | cons k ks ih =>
    rw [List.foldl_cons]
    refine (ih (insertByDepth k acc)).trans ?_
    have h1 : (insertByDepth k acc ++ ks).Perm ((k :: acc) ++ ks) :=
      (perm_insertByDepth k acc).append_right ks
    exact h1.trans List.perm_middle.symm

/-- Sorting the slice keys by depth only reorders them. -/
theorem sortByDepth_perm (l : List String) : (sortByDepth l).Perm l := by
  rw [sortByDepth]
  simpa using sortByDepth_aux_perm l []

/-- Once a root is hydrated with its slice, later loop iterations keep
its value: a later slice for the same root re-reads the same stored
entry, a deeper slice under it is skipped, and unrelated slices write
elsewhere. -/
theorem mergeSliceStep_preserves (cfg : PersistenceConfig) (storage : Storage)
    (r : String) (v : JVal) (st : JVal × List String) (k' : String)
    (hfind : storGet storage ("persisted_state_" ++ r) = some (.val v))
    (hpre : startsWithS k' "persisted_state_" = true)
    (hst : SliceInv r v st) :
    SliceInv r v (mergeSliceStep cfg storage st k') := by
  obtain ⟨hget, hobj, hmem⟩ := hst
  rw [mergeSliceStep]
  by_cases h1 : shouldPersistPath cfg (dropPfx k' "persisted_state_") = true
  · simp only [h1, Bool.not_true, Bool.false_eq_true, if_false]
    by_cases h2 : st.2.any (fun root =>
        startsWithS (dropPfx k' "persisted_state_") (root ++ ".")) = true
    · rw [if_pos h2]
      exact ⟨hget, hobj, hmem⟩
    · rw [if_neg h2]
      cases hval : storGet storage k' with
      | none => exact ⟨hget, hobj, hmem⟩
      | some sv =>
        cases sv with
        | empty => exact ⟨hget, hobj, hmem⟩
        | malformed => exact ⟨hget, hobj, hmem⟩
        | val pv =>
          simp only
          by_cases hlen : ((splitDot (dropPfx k' "persisted_state_")).length == 1) = true
          · rw [if_pos hlen]
            obtain ⟨x, hx⟩ := List.length_eq_one.mp (beq_iff_eq.mp hlen)
            have hxp : x = dropPfx k' "persisted_state_" :=
              splitDot_singleton _ x hx
            by_cases hpr : dropPfx k' "persisted_state_" = r
            · have hk' : k' = "persisted_state_" ++ r := by
                rw [← startsWith_reconstruct k' "persisted_state_" hpre, hpr]
              rw [hk'] at hval
              rw [hfind] at hval
              have hpv : pv = v := by
                injection hval with h
                injection h with h3
                exact h3.symm
              refine ⟨?_, jSetKey_obj _ _ _ hobj, by simp [hmem]⟩
              rw [hx]
              simp only [List.headD]
              rw [hxp, hpr, hpv]
              exact jsGet_jSetKey_self st.1 r v hobj
            · refine ⟨?_, jSetKey_obj _ _ _ hobj, by simp [hmem]⟩
              rw [hx]
              simp only [List.headD]
              rw [hxp]
              rw [jsGet_jSetKey_other st.1 r _ pv (fun h => hpr h.symm)]
              exact hget
          · rw [if_neg hlen]
            obtain ⟨x, rest, hsplit⟩ : ∃ x rest,
                splitDot (dropPfx k' "persisted_state_") = x :: rest := by
              cases hs : splitDot (dropPfx k' "persisted_state_") with
              | nil => exact absurd hs (splitDot_ne_nil _)
              | cons a b => exact ⟨a, b, rfl⟩
            have hrest : rest ≠ [] := by
              intro hr
              rw [hr] at hsplit
              rw [hsplit] at hlen
              simp at hlen
            have hxr : x ≠ r := by
              intro hx
              apply h2
              rw [List.any_eq_true]
              refine ⟨r, hmem, ?_⟩
              rw [← hx]
              exact startsWithS_of_splitDot _ x rest hsplit hrest
            rw [hsplit]
            cases rest with
            | nil => exact absurd rfl hrest
            | cons y rest2 =>
              refine ⟨?_, jSetKey_obj _ _ _ hobj, by simp [hmem]⟩
              rw [setDeepIn]
              · rw [jsGet_jSetKey_other st.1 r x _ (fun h => hxr h.symm)]
                exact hget
              all_goals simp
  · simp only [Bool.not_eq_true] at h1
    simp only [h1, Bool.not_false, if_true]
    exact ⟨hget, hobj, hmem⟩

theorem foldl_mergeSliceStep_preserves (cfg : PersistenceConfig)
    (storage : Storage) (r : String) (v : JVal) (L : List String)
    (hfind : storGet storage ("persisted_state_" ++ r) = some (.val v))
    (hpre : ∀ k' ∈ L, startsWithS k' "persisted_state_" = true)
    (st : JVal × List String) (hst : SliceInv r v st) :
    SliceInv r v (L.foldl (mergeSliceStep cfg storage) st) := by
  induction L generalizing st with
  | nil => exact hst
  | cons k' ks ih =>
    rw [List.foldl_cons]
    exact ih (fun x hx => hpre x (by simp [hx])) _
      (mergeSliceStep_preserves cfg storage r v st k' hfind
        (hpre k' (by simp)) hst)

theorem foldl_mergeSliceStep_obj (cfg : PersistenceConfig) (storage : Storage)
    (L : List String) (st : JVal × List String) (hobj : isObjB st.1 = true) :
    isObjB ((L.foldl (mergeSliceStep cfg storage) st).1) = true := by
  induction L generalizing st with
  | nil => exact hobj
  | cons k ks ih =>
    rw [List.foldl_cons]
    exact ih _ (mergeSliceStep_obj cfg storage st k hobj)

/-- Processing the slice entry for a dot-free persistable root `r`
installs the stored slice value and records the root. -/
theorem mergeSliceStep_establishes (cfg : PersistenceConfig) (storage : Storage)
    (r : String) (v : JVal) (st : JVal × List String)
    (hdot : '.' ∉ r.data)
    (hsp : shouldPersistPath cfg r = true)
    (hfind : storGet storage ("persisted_state_" ++ r) = some (.val v))
    (hobj : isObjB st.1 = true) :
    SliceInv r v (mergeSliceStep cfg storage st ("persisted_state_" ++ r)) := by
  rw [mergeSliceStep]
  have hdp : dropPfx ("persisted_state_" ++ r) "persisted_state_" = r :=
    dropPfx_append _ _
  rw [hdp]
  simp only [hsp, Bool.not_true, Bool.false_eq_true, if_false]
  have h2 : st.2.any (fun root => startsWithS r (root ++ ".")) = false := by
    rw [← Bool.not_eq_true, List.any_eq_true]
    rintro ⟨root, hroot, hsw⟩
    rw [startsWithS_dot_false r root hdot] at hsw
    exact Bool.false_ne_true hsw
  rw [if_neg (by simp [h2])]
  rw [hfind]
  have hsd : splitDot r = [r] := splitDot_of_no_dot r hdot
  rw [hsd]
  simp only [List.length_cons, List.length_nil, List.headD]
  rw [if_pos (by simp)]
  exact ⟨jsGet_jSetKey_self st.1 r v hobj, jSetKey_obj _ _ _ hobj, by simp⟩

/-- Running the whole sorted slice loop from any object state ends with
root `r` holding its individually stored slice value. -/
theorem merge_fold_result (cfg : PersistenceConfig) (storage : Storage)
    (r : String) (v : JVal) (m0 : JVal)
    (hdot : '.' ∉ r.data) (hsp : shouldPersistPath cfg r = true)
    (hfind : storGet storage ("persisted_state_" ++ r) = some (.val v))
    (hobj : isObjB m0 = true) :
    jsGet ((sortByDepth ((storage.map (·.1)).filter
        (fun k => startsWithS k "persisted_state_"))).foldl
      (mergeSliceStep cfg storage) (m0, [])).1 r = v := by
  have hkmem' : ("persisted_state_" ++ r) ∈ (storage.map (·.1)).filter
      (fun k => startsWithS k "persisted_state_") := by
    rw [List.mem_filter]
    refine ⟨?_, startsWithS_append_self _ _⟩
    rw [storGet] at hfind
    cases hfe : storage.find? (fun e => e.1 == ("persisted_state_" ++ r)) with
    | none => rw [hfe] at hfind; simp at hfind
    | some e =>
      have hkey := List.find?_some hfe
      simp only [beq_iff_eq] at hkey
      rw [List.mem_map]
      exact ⟨e, List.mem_of_find?_eq_some hfe, hkey⟩
  have hperm := sortByDepth_perm ((storage.map (·.1)).filter
    (fun k => startsWithS k "persisted_state_"))
  have hkmem := hperm.mem_iff.mpr hkmem'
  obtain ⟨L1, L2, hsplit⟩ := List.append_of_mem hkmem
  have hpreAll : ∀ k' ∈ L2, startsWithS k' "persisted_state_" = true := by
    intro k' hk'
    have hks : k' ∈ sortByDepth ((storage.map (·.1)).filter
        (fun k => startsWithS k "persisted_state_")) := by
      rw [hsplit]
      simp [hk']
    exact List.of_mem_filter (p := fun k => startsWithS k "persisted_state_")
      (hperm.subset hks)
  rw [hsplit, List.foldl_append, List.foldl_cons]
  have hst1obj := foldl_mergeSliceStep_obj cfg storage L1 (m0, []) hobj
  have hstep := mergeSliceStep_establishes cfg storage r v _ hdot hsp hfind hst1obj
  exact (foldl_mergeSliceStep_preserves cfg storage r v L2 hfind hpreAll _ hstep).1

/-- A synchronously merged state ends with every individually persisted
top-level slice holding its stored value, regardless of the full-state
blob merged before it. -/
theorem merge_slice_overrides (cfg : PersistenceConfig) (env : MergeEnv)
    (init : JVal) (r : String) (v : JVal)
    (hw : env.isBrowser = true) (hc : env.hasWarmCache = false)
    (hdot : '.' ∉ r.data) (hsp : shouldPersistPath cfg r = true)
    (hfind : storGet env.storage ("persisted_state_" ++ r) = some (.val v))
    (hobj : isObjB init = true) :
    ∃ m, mergePersistedIntoState cfg env init = some m ∧ jsGet m r = v := by
  rw [mergePersistedIntoState, hw, hc]
  simp only [Bool.not_true, Bool.false_eq_true, if_false]
  refine ⟨_, rfl, ?_⟩
  apply merge_fold_result cfg env.storage r v _ hdot hsp hfind
  cases storGet env.storage "persisted_state" with
  | none => exact hobj
  | some sv =>
    cases sv with
    | empty => exact hobj
    | malformed => exact hobj
    | val j =>
      cases j with
      | obj fs => exact blobMerge_obj fs init hobj
      | null => exact hobj
      | undefined => exact hobj
      | num n => exact hobj
      | str s => exact hobj
      | unserializable => exact hobj

/-- C6: during synchronous hydration an individually stored slice entry
is applied after the full-state blob and therefore overrides it for its
root; a slice entry whose root extends an already-hydrated parent root
is skipped; and concretely, with blob `user.name = "X"` and slice entry
`persisted_state_user = (name = "Y")`, the hydrated `user` value has
`name = "Y"`. -/
theorem hydration_slice_precedence :
    (∀ (cfg : PersistenceConfig) (env : MergeEnv) (init : JVal) (r : String)
        (v : JVal), env.isBrowser = true → env.hasWarmCache = false →
      '.' ∉ r.data → shouldPersistPath cfg r = true →
      storGet env.storage ("persisted_state_" ++ r) = some (.val v) →
      isObjB init = true →
      ∃ m, mergePersistedIntoState cfg env init = some m ∧ jsGet m r = v) ∧
    (∀ (cfg : PersistenceConfig) (storage : Storage) (st : JVal × List String)
        (k : String), (∃ root ∈ st.2,
          startsWithS (dropPfx k "persisted_state_") (root ++ ".") = true) →
      mergeSliceStep cfg storage st k = st) ∧
    mergePersistedIntoState cfgAll mergeEnvEx initEx =
      some (.obj [("user", .obj [("name", .str "Y")])]) := by
  refine ⟨merge_slice_overrides, ?_, ?_⟩
  · rintro cfg storage st k ⟨root, hroot, hsw⟩
    rw [mergeSliceStep]
    by_cases h1 : shouldPersistPath cfg (dropPfx k "persisted_state_") = true
    · simp only [h1, Bool.not_true, Bool.false_eq_true, if_false]
      rw [if_pos (List.any_eq_true.mpr ⟨root, hroot, hsw⟩)]
    · simp only [Bool.not_eq_true] at h1
      simp [h1]
  · rfl

/-- C6 witness: the precedence theorem applied at the concrete blob and
slice storage, and the skip theorem applied at a fragmented child entry
of the already-hydrated `user` root. -/
theorem hydration_slice_precedence_witness :
    (∃ m, mergePersistedIntoState cfgAll mergeEnvEx initEx = some m ∧
      jsGet m "user" = .obj [("name", .str "Y")]) ∧
    mergeSliceStep cfgAll storageEx (initEx, ["user"])
      "persisted_state_user.name" = (initEx, ["user"]) :=
  ⟨hydration_slice_precedence.1 cfgAll mergeEnvEx initEx "user"
      (.obj [("name", .str "Y")]) rfl rfl (by decide) (by decide) rfl rfl,
   hydration_slice_precedence.2.1 cfgAll storageEx (initEx, ["user"])
      "persisted_state_user.name" ⟨"user", by simp, by decide⟩⟩

end ScopeState
